import Mathlib

set_option maxRecDepth 100000

/-!
Verification of the truncatable-primes search engine of
`src/code/truncatable_primes/` (files `truncprimes.c`, `tp_util.c`,
`tree_convert.c`) against its natural-language specification.

Embedding conventions:
* GMP arbitrary-precision integers (`mpz_t`) become `Nat`.
* The depth limit (`_g_maxdepth`) becomes a structural fuel argument of the
  recursive enumerators: a call of `primes_r` made at C depth `d` is embedded
  with fuel `_g_maxdepth - d + 1`, so the fuel is `≥ 1` exactly when the C
  guard `_g_depth <= _g_maxdepth` lets the digit loop run.
* The mutable recursion stack becomes explicit argument passing (the
  backtracking invariant justifying this is itself verified, see the
  theorems about `primes_lar_inner` / `primes_lar_outer`).
* The probable-primality oracle is an abstract parameter `pt : Nat → Bool`;
  `probab_prime` is a concrete executable instance used on small inputs.
* 64-bit C arithmetic is embedded as `Nat` arithmetic with explicit
  reduction modulo `2 ^ 64`.
-/

/-- Modelled from the spec: the probable-primality oracle
(`mpz_probab_prime_p`, external to the repository) is specified only by its
contract: given a non-negative integer, return whether it is (probably)
prime.  For the small concrete inputs appearing in witnesses we use exact
trial division, which satisfies that contract. -/
def probab_prime (n : Nat) : Bool :=
  decide (2 ≤ n) && (List.range (n - 2)).all (fun d => decide (n % (d + 2) ≠ 0))

/-- Digit-count loop `while (root > 0) { ++rlen; root /= base; }` from
`primes_init_root` (truncprimes.c) and `TP_init` (tp_util.c).  The first
argument is structural fuel; `n` itself bounds the number of iterations
whenever `b ≥ 2`. -/
def digit_len_go (b : Nat) : Nat → Nat → Nat
  | 0, _ => 0
  | fuel+1, n => if n = 0 then 0 else digit_len_go b fuel (n / b) + 1

/-- Number of base-`b` digits of `n` (`_g_rlen` computation). -/
def digit_len (b n : Nat) : Nat :=
  digit_len_go b n n

/-- The digit loop of `primes_r` (truncprimes.c, lines 372-389): the frame
value starts at `parent * base` (`mpz_mul_ui`), every iteration increments
the right digit (`mpz_add_ui(STACK_CURR,STACK_CURR,1)`), and a candidate is
kept when the oracle accepts it.  `cnt` is the number of remaining loop
iterations, `v` the running frame value, `d` the current digit; the list
collects each accepted branch digit with the accepted child value. -/
def primes_r_loop (pt : Nat → Bool) : Nat → Nat → Nat → List (Nat × Nat)
  | 0, _, _ => []
  | cnt+1, v, d =>
    (if pt (v + 1) then [(d, v + 1)] else []) ++ primes_r_loop pt cnt (v + 1) (d + 1)

/-- Prime children of `parent` in RIGHT mode: the digit loop of `primes_r`
run for digits `1 .. base-1` starting from the shifted value. -/
def children_r (pt : Nat → Bool) (b parent : Nat) : List (Nat × Nat) :=
  primes_r_loop pt (b - 1) (parent * b) 1

/-- The digit loop of `primes_l` (truncprimes.c, lines 410-427): the frame
value starts as a copy of the parent (`mpz_set`), every iteration adds
`POWER_CURR = base ^ (rlen + depth - 1)` (passed here as `P`). -/
def primes_l_loop (pt : Nat → Bool) (P : Nat) : Nat → Nat → Nat → List (Nat × Nat)
  | 0, _, _ => []
  | cnt+1, v, d =>
    (if pt (v + P) then [(d, v + P)] else []) ++ primes_l_loop pt P cnt (v + P) (d + 1)

/-- Prime children of `parent` in LEFT mode; `e` is the exponent
`rlen + depth - 1` of `POWER_CURR` (the power table satisfies
`pow[i] = base ^ i`, see `get_power` below). -/
def children_l (pt : Nat → Bool) (b e parent : Nat) : List (Nat × Nat) :=
  primes_l_loop pt (b ^ e) (b - 1) parent 1

/-- Prime children of `parent` in LEFT_OR_RIGHT mode (`primes_lor`,
truncprimes.c lines 440-496): the left-append loop (identical to the
`primes_l` loop) followed by the right-append loop (identical to the
`primes_r` loop, the frame value being reset to `parent * base`).  The first
component is the side byte written to the tree stream (`0` = left,
`1` = right). -/
def children_lor (pt : Nat → Bool) (b e parent : Nat) : List (Nat × Nat × Nat) :=
  (primes_l_loop pt (b ^ e) (b - 1) parent 1).map (fun dc => (0, dc.1, dc.2))
    ++ (primes_r_loop pt (b - 1) (parent * b) 1).map (fun dc => (1, dc.1, dc.2))

/-- The right-digit loop of `primes_lar` (truncprimes.c lines 517-534):
`cnt` iterations of `mpz_add_ui(STACK_CURR,STACK_CURR,1)`, collecting
accepted `(right digit, value)` pairs; the second component of the result
is the final frame value, which the enclosing loop backtracks. -/
def primes_lar_inner (pt : Nat → Bool) : Nat → Nat → Nat → List (Nat × Nat) × Nat
  | 0, v, _ => ([], v)
  | cnt+1, v, dr =>
    let r := primes_lar_inner pt cnt (v + 1) (dr + 1)
    ((if pt (v + 1) then [(dr, v + 1)] else []) ++ r.1, r.2)

/-- The left-digit loop of `primes_lar` (truncprimes.c lines 512-537): each
pass adds `base ^ LAR_POWER_INDEX` (passed as `P`), runs the right-digit
loop for digits `1 .. base-1`, then backtracks the `base-1` right-digit
increments with `mpz_sub_ui(STACK_CURR,STACK_CURR,_g_base-1)`. -/
def primes_lar_outer (pt : Nat → Bool) (b P : Nat) : Nat → Nat → Nat → List (Nat × Nat × Nat)
  | 0, _, _ => []
  | cnt+1, v, dl =>
    let r := primes_lar_inner pt (b - 1) (v + P) 1
    r.1.map (fun x => (dl, x.1, x.2)) ++ primes_lar_outer pt b P cnt (r.2 - (b - 1)) (dl + 1)

/-- Prime children of `parent` in LEFT_AND_RIGHT mode; `e` is the exponent
`LAR_POWER_INDEX = rlen + 2*depth - 1`.  Elements are
`(left digit, right digit, value)`. -/
def children_lar (pt : Nat → Bool) (b e parent : Nat) : List (Nat × Nat × Nat) :=
  primes_lar_outer pt b (b ^ e) (b - 1) (parent * b) 1

/-- Tree byte stream written by `primes_r` (truncprimes.c, `WRITE_TREE`
variant) for the subtree below `parent`: for each accepted child, the digit
byte (`write_byte(d)`) followed by the child subtree, and finally the end
byte `255`.  The fuel is `_g_maxdepth - _g_depth + 1` at the corresponding
C call, so fuel `0` embeds a call whose digit loop is skipped. -/
def primes_r (pt : Nat → Bool) (b : Nat) : Nat → Nat → List Nat
  | 0, _ => [255]
  | f+1, parent =>
    (children_r pt b parent).flatMap (fun dc => dc.1 :: primes_r pt b f dc.2) ++ [255]

/-- Tree byte stream written by `primes_l` for the subtree below `parent`;
`e` is the exponent of `POWER_CURR` for the first appended digit and grows
by one per level. -/
def primes_l (pt : Nat → Bool) (b : Nat) : Nat → Nat → Nat → List Nat
  | 0, _, _ => [255]
  | f+1, e, parent =>
    (children_l pt b e parent).flatMap (fun dc => dc.1 :: primes_l pt b f (e + 1) dc.2) ++ [255]


/-- Node values visited by the RIGHT-mode enumerator below `parent` (the
value held in `STACK_CURR` each time `write_byte(d)` runs in `primes_r`),
in depth-first traversal order. -/
def visit_r (pt : Nat → Bool) (b : Nat) : Nat → Nat → List Nat
  | 0, _ => []
  | f+1, parent => (children_r pt b parent).flatMap (fun dc => dc.2 :: visit_r pt b f dc.2)

/-- Node values visited by the LEFT_OR_RIGHT-mode enumerator `primes_lor`
below `parent`, in depth-first traversal order (left-append children first,
then right-append children). -/
def visit_lor (pt : Nat → Bool) (b : Nat) : Nat → Nat → Nat → List Nat
  | 0, _, _ => []
  | f+1, e, parent =>
    (children_lor pt b e parent).flatMap (fun sdc => sdc.2.2 :: visit_lor pt b f (e + 1) sdc.2.2)

/-- Per-node child counters recorded by the `WRITE_STATS` variant of
`primes_r` (`++_g_counts[_g_depth][children]`), in the post-order in which
they are recorded: each invocation records its own count after all its
subtrees. -/
def counts_r (pt : Nat → Bool) (b : Nat) : Nat → Nat → List Nat
  | 0, _ => [0]
  | f+1, parent =>
    (children_r pt b parent).flatMap (fun dc => counts_r pt b f dc.2)
      ++ [(children_r pt b parent).length]

/-- Per-node child counters recorded by the `WRITE_STATS` variant of
`primes_l`. -/
def counts_l (pt : Nat → Bool) (b : Nat) : Nat → Nat → Nat → List Nat
  | 0, _, _ => [0]
  | f+1, e, parent =>
    (children_l pt b e parent).flatMap (fun dc => counts_l pt b f (e + 1) dc.2)
      ++ [(children_l pt b e parent).length]

/-- Per-node child counters recorded by the `WRITE_STATS` variant of
`primes_lor`. -/
def counts_lor (pt : Nat → Bool) (b : Nat) : Nat → Nat → Nat → List Nat
  | 0, _, _ => [0]
  | f+1, e, parent =>
    (children_lor pt b e parent).flatMap (fun sdc => counts_lor pt b f (e + 1) sdc.2.2)
      ++ [(children_lor pt b e parent).length]

/-- Per-node child counters recorded by the `WRITE_STATS` variant of
`primes_lar` (`e` advances by 2 per level: `LAR_POWER_INDEX`). -/
def counts_lar (pt : Nat → Bool) (b : Nat) : Nat → Nat → Nat → List Nat
  | 0, _, _ => [0]
  | f+1, e, parent =>
    (children_lar pt b e parent).flatMap (fun dd => counts_lar pt b f (e + 2) dd.2.2)
      ++ [(children_lar pt b e parent).length]

/-- Table sizes `_g_max_children` from `init_globals` (truncprimes.c lines
273-279): `base` for R/L. -/
def max_children_rl (b : Nat) : Nat := b

/-- `_g_max_children` for LEFT_OR_RIGHT: `2*_g_base`. -/
def max_children_lor (b : Nat) : Nat := 2 * b

/-- `_g_max_children` for LEFT_AND_RIGHT: `_g_base*_g_base`. -/
def max_children_lar (b : Nat) : Nat := b * b

/-- `HASH_INIT` (truncprimes.c line 354): `mpz_get_ui` yields the low 64
bits of the node value, shifted right by one. -/
def hash_init (p : Nat) : Nat := (p % 2 ^ 64) >>> 1

/-- `HASH_SWAP` (line 357): `(h >> 32) | (h << 32)` in `uint64_t`; the left
shift wraps modulo `2^64`. -/
def hash_swap (h : Nat) : Nat := (h >>> 32) ||| ((h <<< 32) % 2 ^ 64)

/-- `HASH_DIGIT` (line 355): `127*h - d` in wrapping `uint64_t`
arithmetic, embedded as addition of the two's complement of `d`. -/
def hash_digit (h d : Nat) : Nat := (127 * h + (2 ^ 64 - d % 2 ^ 64)) % 2 ^ 64

/-- `HASH_CHILD` (line 356): `8191*h + c` modulo `2^64`. -/
def hash_child (h c : Nat) : Nat := (8191 * h + c) % 2 ^ 64

/-- `HASH_UPDATE` (line 358). -/
def hash_update (h d c : Nat) : Nat := h ^^^ hash_swap (hash_child (hash_digit h d) c)

/-- Subtree hash computed by the `WRITE_STATS` variant of `primes_r`:
start from `HASH_INIT` and fold `HASH_UPDATE(hash, d, child_hash)` over the
accepted children in traversal order. -/
def hash_r (pt : Nat → Bool) (b : Nat) : Nat → Nat → Nat
  | 0, parent => hash_init parent
  | f+1, parent =>
    (children_r pt b parent).foldl
      (fun h dc => hash_update h dc.1 (hash_r pt b f dc.2)) (hash_init parent)

/-- Subtree hash computed by the `WRITE_STATS` variant of `primes_lor`:
left-append children use path number `d`, right-append children use
`_g_base + d` (truncprimes.c lines 465 and 484). -/
def hash_lor (pt : Nat → Bool) (b : Nat) : Nat → Nat → Nat → Nat
  | 0, _, parent => hash_init parent
  | f+1, e, parent =>
    (children_lor pt b e parent).foldl
      (fun h sdc =>
        hash_update h (if sdc.1 = 0 then sdc.2.1 else b + sdc.2.1)
          (hash_lor pt b f (e + 1) sdc.2.2))
      (hash_init parent)

/-- Subtree hash computed by the `WRITE_STATS` variant of `primes_l`:
start from `HASH_INIT` and fold `HASH_UPDATE(hash, d, child_hash)` over the
accepted left-append children in traversal order, the path number being the
appended digit `d` (truncprimes.c line 425); the recursion appends at the
next higher power of the base. -/
def hash_l (pt : Nat → Bool) (b : Nat) : Nat → Nat → Nat → Nat
  | 0, _, parent => hash_init parent
  | f+1, e, parent =>
    (children_l pt b e parent).foldl
      (fun h dc => hash_update h dc.1 (hash_l pt b f (e + 1) dc.2)) (hash_init parent)

/-- Subtree hash computed by the `WRITE_STATS` variant of `primes_lar`:
start from `HASH_INIT` and fold `HASH_UPDATE(hash, dl*_g_base+dr,
child_hash)` over the accepted two-digit-append children in traversal order
(truncprimes.c line 531); each level appends one left and one right digit,
so the recursion raises the left-digit exponent by two. -/
def hash_lar (pt : Nat → Bool) (b : Nat) : Nat → Nat → Nat → Nat
  | 0, _, parent => hash_init parent
  | f+1, e, parent =>
    (children_lar pt b e parent).foldl
      (fun h dd => hash_update h (dd.1 * b + dd.2.1) (hash_lar pt b f (e + 2) dd.2.2))
      (hash_init parent)

/-- Stream written by `primes_init_root` for RIGHT mode with maximal
recursion depth `f`: the reserved root byte `255` followed by the root's
subtree (which ends with its own end byte). -/
def primes_r_tree (pt : Nat → Bool) (b f root : Nat) : List Nat :=
  255 :: primes_r pt b f root

/-- `primes_init_root` (truncprimes.c lines 555-576) for RIGHT mode:
`_g_maxdepth = _g_maxlength - _g_rlen`.  (In C this subtraction is on
`uint32_t` and wraps when `maxlen < rlen`; the embedding uses truncated
`Nat` subtraction, and all theorems about it assume `rlen ≤ maxlen`, where
the two agree.) -/
def primes_init_root_r (pt : Nat → Bool) (b root maxlen : Nat) : List Nat :=
  primes_r_tree pt b (maxlen - digit_len b root) root

/-- Root loop of `primes_init_1digit` (truncprimes.c lines 583-617) for
RIGHT mode: roots `2 .. base-1` in ascending order, each primality-tested;
accepted roots contribute their root byte and their subtree.  `cnt` is the
number of remaining candidates, `r` the current candidate. -/
def init_roots_r (pt : Nat → Bool) (b f : Nat) : Nat → Nat → List Nat
  | 0, _ => []
  | cnt+1, r => (if pt r then r :: primes_r pt b f r else []) ++ init_roots_r pt b f cnt (r + 1)

/-- Full RIGHT-mode no-root stream written by `primes_r_init`
(truncprimes.c lines 746-774, else branch): root marker `255`, the
1-digit-root forest (skipped when `maxlength < 1`), and the closing `255`.
Each root runs with `_g_maxdepth = _g_maxlength - 1`. -/
def primes_r_init (pt : Nat → Bool) (b maxlen : Nat) : List Nat :=
  255 :: (if maxlen < 1 then [] else init_roots_r pt b (maxlen - 1) (b - 2) 2) ++ [255]

/-- Values visited during the root loop of the RIGHT-mode no-root run. -/
def init_roots_visit_r (pt : Nat → Bool) (b f : Nat) : Nat → Nat → List Nat
  | 0, _ => []
  | cnt+1, r =>
    (if pt r then r :: visit_r pt b f r else []) ++ init_roots_visit_r pt b f cnt (r + 1)

/-- All node values visited by the RIGHT-mode no-root run, in order. -/
def visit_r_init (pt : Nat → Bool) (b maxlen : Nat) : List Nat :=
  if maxlen < 1 then [] else init_roots_visit_r pt b (maxlen - 1) (b - 2) 2

/-- Values visited during the root loop of the LEFT_OR_RIGHT no-root run
(`primes_lor_init`, else branch): 1-digit roots have `rlen = 1`, so their
subtrees start with power exponent `rlen + depth - 1 = 1`. -/
def init_roots_visit_lor (pt : Nat → Bool) (b f : Nat) : Nat → Nat → List Nat
  | 0, _ => []
  | cnt+1, r =>
    (if pt r then r :: visit_lor pt b f 1 r else []) ++ init_roots_visit_lor pt b f cnt (r + 1)

/-- All node values visited by the LEFT_OR_RIGHT no-root run, in order. -/
def visit_lor_init (pt : Nat → Bool) (b maxlen : Nat) : List Nat :=
  if maxlen < 1 then [] else init_roots_visit_lor pt b (maxlen - 1) (b - 2) 2

/-- Hash accumulation over the root loop of the RIGHT-mode no-root run:
`h = HASH_UPDATE(h, root, subtree_hash)` for each accepted root. -/
def init_roots_hash_r (pt : Nat → Bool) (b f : Nat) : Nat → Nat → Nat → Nat
  | 0, _, h => h
  | cnt+1, r, h =>
    init_roots_hash_r pt b f cnt (r + 1) (if pt r then hash_update h r (hash_r pt b f r) else h)

/-- Hash reported by the RIGHT-mode no-root run (`primes_r_init`,
`WRITE_STATS` variant): the accumulator starts at `0`. -/
def hash_r_init (pt : Nat → Bool) (b maxlen : Nat) : Nat :=
  if maxlen < 1 then 0 else init_roots_hash_r pt b (maxlen - 1) (b - 2) 2 0

/-- Stack frame of the reader `primes_r` in tree_convert.c: the running
value `STACK_CURR` at this depth and the previously applied digit
`dprev`. -/
structure TCFrame where
  cur : Nat
  dprev : Nat

/-- The reader `primes_r` of tree_convert.c (lines 157-175), its recursion
made explicit as a stack machine consuming one byte per step.  Reading
`255` returns from the current recursive call (pops); reading a digit byte
`d` checks `check_byte_between(d, dprev, ibase)`, advances the running
value by `d - dprev`, outputs it (`write_number`), and recurses into the
child (pushes a frame whose running value is the child value shifted by the
base).  `none` embeds the reader's fatal errors (`read_byte_strict` hitting
EOF, or an out-of-bounds byte). -/
def tree_convert_r (b : Nat) : List TCFrame → List Nat → Option (List Nat × List Nat)
  | [], s => some ([], s)
  | _ :: _, [] => none
  | fr :: stack, dbyte :: rest =>
    if dbyte = 255 then tree_convert_r b stack rest
    else if fr.dprev < dbyte ∧ dbyte < b then
      match tree_convert_r b (⟨(fr.cur + (dbyte - fr.dprev)) * b, 0⟩ ::
          ⟨fr.cur + (dbyte - fr.dprev), dbyte⟩ :: stack) rest with
      | some (out, s') => some ((fr.cur + (dbyte - fr.dprev)) :: out, s')
      | none => none
    else none

/-- The `main` of tree_convert.c for prime type `r`: requires the leading
root byte `255`, decodes the rest with `primes_r` starting from the root in
`_g_stack[0]`, and requires that the stream is consumed exactly. -/
def tree_convert_r_main (b root : Nat) (s : List Nat) : Option (List Nat) :=
  match s with
  | [] => none
  | b0 :: rest =>
    if b0 = 255 then
      match tree_convert_r b [⟨root * b, 0⟩] rest with
      | some (out, s') => if s' = [] then some out else none
      | none => none
    else none

/-- `TP_FRAME` (tp_util.h): the frame value `n`, the next-append counter
`i`, the child count `c` and the two root/branch bytes `v[2]`. -/
structure TP_FRAME where
  n : Nat
  i : Nat
  c : Nat
  v0 : Nat
  v1 : Nat
deriving DecidableEq

/-- `TP_STATE` (tp_util.h) for the explicit-stack generator.  The stack is
kept top-first with the root holder `stack[0]` at the end, so the C depth
is `stack.length - 1`; the slots above the current depth that C keeps
allocated are dropped (they are fully re-initialized before any read).  The
`mode` field is omitted: it only controls the `TP_VALUE` side channel,
which byte-stream runs (`TP_BYTES_ONLY`) never read. -/
structure TP_STATE where
  base : Nat
  rlen : Nat
  maxlen : Nat
  stack : List TP_FRAME
deriving DecidableEq

/-- `TP_init` (tp_util.c lines 176-208): stack slot 0 holds the root,
slot 1 is the initial frame carrying the caller-supplied root bytes, and
the generator starts at depth 1. -/
def TP_init (b root maxlen rv0 rv1 : Nat) : TP_STATE :=
  ⟨b, digit_len b root, maxlen, [⟨0, 0, 0, rv0, rv1⟩, ⟨root, 0, 0, 0, 0⟩]⟩

/-- One iteration of the `for (;;)` loop of `TP_next_r` (tp_util.c lines
269-310): `none` when the generator is exhausted (`depth == 0`, return 0);
`some (some bytes, s')` when the iteration yields; `some (none, s')` for an
internal step.  Cases in source order: `i = 0` yields the stored byte;
`rlen + depth > maxlen` sets `i := base` (prune); `i < base` runs one digit
append (multiplying by the base first when `i = 1`), pushing a frame with
`v[0] = i` when the oracle accepts; otherwise yield the end byte `255` and
pop. -/
def TP_step_r (pt : Nat → Bool) (s : TP_STATE) : Option (Option (List Nat) × TP_STATE) :=
  match s.stack with
  | [] => none
  | [_] => none
  | fr :: pfr :: rest =>
    if fr.i = 0 then
      some (some [fr.v0], ⟨s.base, s.rlen, s.maxlen, ⟨fr.n, 1, fr.c, fr.v0, fr.v1⟩ :: pfr :: rest⟩)
    else if s.maxlen < s.rlen + (pfr :: rest).length then
      some (none, ⟨s.base, s.rlen, s.maxlen, ⟨fr.n, s.base, fr.c, fr.v0, fr.v1⟩ :: pfr :: rest⟩)
    else if fr.i < s.base then
      if pt ((if fr.i = 1 then pfr.n * s.base else fr.n) + 1) then
        some (none, ⟨s.base, s.rlen, s.maxlen,
          ⟨0, 0, 0, fr.i, 0⟩ ::
            ⟨(if fr.i = 1 then pfr.n * s.base else fr.n) + 1, fr.i + 1, fr.c + 1, fr.v0, fr.v1⟩ ::
              pfr :: rest⟩)
      else
        some (none, ⟨s.base, s.rlen, s.maxlen,
          ⟨(if fr.i = 1 then pfr.n * s.base else fr.n) + 1, fr.i + 1, fr.c, fr.v0, fr.v1⟩ ::
            pfr :: rest⟩)
    else
      some (some [255], ⟨s.base, s.rlen, s.maxlen, pfr :: rest⟩)

/-- Run `k` iterations of the `TP_next_r` loop (stopping early if the
generator is exhausted), concatenating all yielded byte sequences. -/
def TP_steps_r (pt : Nat → Bool) : Nat → TP_STATE → List Nat × TP_STATE
  | 0, s => ([], s)
  | k+1, s =>
    match TP_step_r pt s with
    | none => ([], s)
    | some (ob, s') =>
      let r := TP_steps_r pt k s'
      (ob.getD [] ++ r.1, r.2)

/-- Drive `TP_next_r` to exhaustion (the caller loop of `process_root` in
truncprimes2.c), concatenating the returned byte sequences; `none` when the
step fuel runs out before the generator returns 0. -/
def TP_run_r (pt : Nat → Bool) : Nat → TP_STATE → Option (List Nat)
  | 0, _ => none
  | fuel+1, s =>
    match TP_step_r pt s with
    | none => some []
    | some (ob, s') => (TP_run_r pt fuel s').map (fun bs => ob.getD [] ++ bs)

/-- Whether the RIGHT-mode exploration below `parent`, with `f` remaining
levels until the length limit, visits some prime at exactly the maximal
allowed length (those are the nodes whose generator frames run the prune
branch of `TP_next_r`). -/
def hits_limit_r (pt : Nat → Bool) (b : Nat) : Nat → Nat → Bool
  | 0, _ => false
  | 1, parent => !(children_r pt b parent).isEmpty
  | f+2, parent => (children_r pt b parent).any (fun dc => hits_limit_r pt b (f + 1) dc.2)

/-- Extension loop of `get_power` (truncprimes.c lines 202-208): `cnt` new
entries, each the previous entry multiplied by the base
(`mpz_mul_ui(_g_powers[i], _g_powers[i-1], _g_base)`). -/
def grow_powers (b : Nat) : Nat → Nat → List Nat
  | _, 0 => []
  | last, cnt+1 => last * b :: grow_powers b (last * b) cnt

/-- `get_power` (truncprimes.c lines 198-211) with the global table
`_g_powers` passed explicitly: returns the requested power together with
the updated table.  When `p` is not yet covered, entries
`_g_plen .. p` are appended, each computed from its predecessor. -/
def get_power (b : Nat) (tbl : List Nat) (p : Nat) : Nat × List Nat :=
  if tbl.length ≤ p then
    (tbl ++ grow_powers b (tbl.getD (tbl.length - 1) 0) (p + 1 - tbl.length)).getD p 0
      |> fun x => (x, tbl ++ grow_powers b (tbl.getD (tbl.length - 1) 0) (p + 1 - tbl.length))
  else (tbl.getD p 0, tbl)

/-- Loop of `is_r_truncprime` (tp_util.c lines 26-34), embedded with
structural fuel (the initial `n` bounds the iteration count whenever
`b ≥ 2`, and all callers pass fuel `= n`).  Faithful to the source, each
iteration divides `n` by `b` twice: once as the side effect of the
`mpz_div_ui` call inside the `if` condition (whose return value, the
remainder, is the trailing digit being tested against 0), and once at the
bottom of the loop body. -/
def is_r_truncprime_go (pt : Nat → Bool) (b : Nat) : Nat → Nat → Bool
  | _, 0 => true
  | 0, _+1 => true
  | fuel+1, n+1 =>
    if !pt (n + 1) || (n + 1) % b = 0 then false
    else is_r_truncprime_go pt b fuel ((n + 1) / b / b)

/-- `is_r_truncprime` (tp_util.c lines 18-37); the `a ≤ 0` early return
becomes the `a = 0` case of the `Nat` embedding, and `assert(b > 1)` is
reflected by theorems assuming `2 ≤ b`. -/
def is_r_truncprime (pt : Nat → Bool) (a b : Nat) : Bool :=
  if a = 0 then false else is_r_truncprime_go pt b a a

/-- The specification's RIGHT-mode checker contract, stated from the
spec's words: every right-truncation `a, a/b, a/b^2, ...` down to the
single leading digit is prime. -/
def spec_r_truncprime (pt : Nat → Bool) (b a : Nat) : Bool :=
  decide (0 < a) && (List.range (digit_len b a)).all (fun k => pt (a / b ^ k))

/-- Closed form of the RIGHT-mode candidate generation, stated from the
spec's words: digits `1 .. base-1` in ascending order, candidate child
`parent*base + digit`, keeping exactly the oracle-accepted ones. -/
def spec_children_r (pt : Nat → Bool) (b parent : Nat) : List (Nat × Nat) :=
  ((List.range (b - 1)).map (fun i => (i + 1, parent * b + (i + 1)))).filter (fun dc => pt dc.2)

/-- Closed form of the LEFT-mode candidate generation, from the spec's
words: candidate child `parent + digit * base ^ e`. -/
def spec_children_l (pt : Nat → Bool) (b e parent : Nat) : List (Nat × Nat) :=
  ((List.range (b - 1)).map (fun i => (i + 1, parent + (i + 1) * b ^ e))).filter (fun dc => pt dc.2)

/-- Closed form of the LEFT_AND_RIGHT candidate generation: left digit
outer, right digit inner, candidate `parent*base + dl*base^e + dr`. -/
def spec_children_lar (pt : Nat → Bool) (b e parent : Nat) : List (Nat × Nat × Nat) :=
  ((List.range (b - 1)).flatMap (fun i =>
    (List.range (b - 1)).map (fun j => (i + 1, j + 1, parent * b + (i + 1) * b ^ e + (j + 1))))).filter
    (fun x => pt x.2.2)



/-- The specification's `rot32`, from the spec's words: swap the upper and
lower 32 bits of a 64-bit word. -/
def spec_rot32 (h : Nat) : Nat := (h % 2 ^ 32) * 2 ^ 32 + h / 2 ^ 32

/-- Statement of the generator-vs-recursion simulation for one freshly
pushed frame: from a state whose top frame is fresh (carrying branch byte
`v0x`) above a parent frame holding the prime `pfr.n`, some number of
`TP_next_r` iterations yields exactly the branch byte followed by the
recursive subtree stream of `pfr.n`, ending in the state with the fresh
frame popped. -/
def TPSubStmt (pt : Nat → Bool) (b rlen maxlen φ : Nat) : Prop :=
  ∀ (v0x v1x : Nat) (pfr : TP_FRAME) (crest : List TP_FRAME),
    1 ≤ φ →
    rlen + (pfr :: crest).length + φ = maxlen + 1 →
    hits_limit_r pt b φ pfr.n = false →
    ∃ k, TP_steps_r pt k ⟨b, rlen, maxlen, ⟨0, 0, 0, v0x, v1x⟩ :: pfr :: crest⟩
        = (v0x :: primes_r pt b φ pfr.n, ⟨b, rlen, maxlen, pfr :: crest⟩)

lemma list_filter_map_eq_flatMap {α β : Type} (f : α → β) (p : β → Bool) :
    ∀ l : List α, (l.map f).filter p = l.flatMap (fun a => if p (f a) then [f a] else []) := by
  intro l
  induction l with
  | nil => rfl
  | cons a t ih =>
    simp only [List.map_cons, List.filter_cons, List.flatMap_cons, ← ih]
    by_cases hp : p (f a) <;> simp [hp]

lemma primes_r_loop_eq (pt : Nat → Bool) :
    ∀ cnt v d, primes_r_loop pt cnt v d
      = (List.range cnt).flatMap (fun i => if pt (v + i + 1) then [(d + i, v + i + 1)] else []) := by
  intro cnt
  induction cnt with
  | zero => intro v d; rfl
  | succ n ih =>
    intro v d
    rw [List.range_succ_eq_map]
    simp only [primes_r_loop, List.flatMap_cons, List.flatMap_map, ih (v + 1) (d + 1)]
    have hfun : (fun i => if pt (v + 1 + i + 1) then [(d + 1 + i, v + 1 + i + 1)] else [])
        = fun i => if pt (v + Nat.succ i + 1) then [(d + Nat.succ i, v + Nat.succ i + 1)] else [] := by
      funext i
      have h1 : v + 1 + i + 1 = v + Nat.succ i + 1 := by omega
      have h2 : d + 1 + i = d + Nat.succ i := by omega
      rw [h1, h2]
    rw [hfun]
    simp [Function.comp]

lemma primes_l_loop_eq (pt : Nat → Bool) (P : Nat) :
    ∀ cnt v d, primes_l_loop pt P cnt v d
      = (List.range cnt).flatMap
          (fun i => if pt (v + (i + 1) * P) then [(d + i, v + (i + 1) * P)] else []) := by
  intro cnt
  induction cnt with
  | zero => intro v d; rfl
  | succ n ih =>
    intro v d
    rw [List.range_succ_eq_map]
    simp only [primes_l_loop, List.flatMap_cons, List.flatMap_map, ih (v + P) (d + 1)]
    have hfun : (fun i => if pt (v + P + (i + 1) * P) then [(d + 1 + i, v + P + (i + 1) * P)] else [])
        = fun i => if pt (v + (Nat.succ i + 1) * P) then [(d + Nat.succ i, v + (Nat.succ i + 1) * P)] else [] := by
      funext i
      have h1 : v + P + (i + 1) * P = v + (Nat.succ i + 1) * P := by
        simp only [Nat.succ_eq_add_one]
        ring
      have h2 : d + 1 + i = d + Nat.succ i := by omega
      rw [h1, h2]
    rw [hfun]
    simp [Function.comp]

lemma primes_lar_inner_snd (pt : Nat → Bool) :
    ∀ cnt v dr, (primes_lar_inner pt cnt v dr).2 = v + cnt := by
  intro cnt
  induction cnt with
  | zero => intro v dr; rfl
  | succ n ih =>
    intro v dr
    simp only [primes_lar_inner, ih (v + 1) (dr + 1)]
    omega

lemma primes_lar_inner_fst (pt : Nat → Bool) :
    ∀ cnt v dr, (primes_lar_inner pt cnt v dr).1
      = (List.range cnt).flatMap (fun j => if pt (v + j + 1) then [(dr + j, v + j + 1)] else []) := by
  intro cnt
  induction cnt with
  | zero => intro v dr; rfl
  | succ n ih =>
    intro v dr
    rw [List.range_succ_eq_map]
    simp only [primes_lar_inner, List.flatMap_cons, List.flatMap_map, ih (v + 1) (dr + 1)]
    have hfun : (fun j => if pt (v + 1 + j + 1) then [(dr + 1 + j, v + 1 + j + 1)] else [])
        = fun j => if pt (v + Nat.succ j + 1) then [(dr + Nat.succ j, v + Nat.succ j + 1)] else [] := by
      funext j
      have h1 : v + 1 + j + 1 = v + Nat.succ j + 1 := by omega
      have h2 : dr + 1 + j = dr + Nat.succ j := by omega
      rw [h1, h2]
    rw [hfun]
    simp [Function.comp]

lemma primes_lar_outer_step (pt : Nat → Bool) (b P cnt v dl : Nat) :
    primes_lar_outer pt b P (cnt + 1) v dl
      = (primes_lar_inner pt (b - 1) (v + P) 1).1.map (fun x => (dl, x.1, x.2))
          ++ primes_lar_outer pt b P cnt (v + P) (dl + 1) := by
  have h : (primes_lar_inner pt (b - 1) (v + P) 1).2 - (b - 1) = v + P := by
    rw [primes_lar_inner_snd]
    omega
  simp only [primes_lar_outer]
  rw [h]

lemma primes_lar_outer_eq (pt : Nat → Bool) (b P : Nat) :
    ∀ cnt v dl, primes_lar_outer pt b P cnt v dl
      = (List.range cnt).flatMap (fun i =>
          (List.range (b - 1)).flatMap (fun j =>
            if pt (v + (i + 1) * P + j + 1) then [(dl + i, 1 + j, v + (i + 1) * P + j + 1)] else [])) := by
  intro cnt
  induction cnt with
  | zero => intro v dl; rfl
  | succ n ih =>
    intro v dl
    rw [List.range_succ_eq_map, primes_lar_outer_step, primes_lar_inner_fst, ih (v + P) (dl + 1)]
    simp only [List.flatMap_cons, List.flatMap_map, List.map_flatMap]
    have hone : ∀ j : Nat, v + P + j + 1 = v + (0 + 1) * P + j + 1 := by intro j; ring
    have hhead : (fun j => ((if pt (v + P + j + 1) then [(1 + j, v + P + j + 1)] else []).map
          (fun x => (dl, x.1, x.2))))
        = fun j => if pt (v + (0 + 1) * P + j + 1) then [(dl + 0, 1 + j, v + (0 + 1) * P + j + 1)] else [] := by
      funext j
      rw [← hone j]
      by_cases hp : pt (v + P + j + 1) <;> simp [hp]
    have htail : (fun i =>
          (List.range (b - 1)).flatMap fun j =>
            if pt (v + P + (i + 1) * P + j + 1) then [(dl + 1 + i, 1 + j, v + P + (i + 1) * P + j + 1)] else [])
        = fun i =>
          (List.range (b - 1)).flatMap fun j =>
            if pt (v + (Nat.succ i + 1) * P + j + 1) then [(dl + Nat.succ i, 1 + j, v + (Nat.succ i + 1) * P + j + 1)] else [] := by
      funext i
      have h1 : v + P + (i + 1) * P = v + (Nat.succ i + 1) * P := by
        simp only [Nat.succ_eq_add_one]
        ring
      have h2 : dl + 1 + i = dl + Nat.succ i := by omega
      rw [h1, h2]
    rw [hhead, htail]

lemma children_r_eq (pt : Nat → Bool) (b parent : Nat) :
    children_r pt b parent = spec_children_r pt b parent := by
  unfold children_r spec_children_r
  rw [primes_r_loop_eq, list_filter_map_eq_flatMap]
  have hfun : (fun i => if pt (parent * b + i + 1) then [(1 + i, parent * b + i + 1)] else [])
      = fun i : Nat => if pt (parent * b + (i + 1)) then [(i + 1, parent * b + (i + 1))] else [] := by
    funext i
    have h1 : parent * b + i + 1 = parent * b + (i + 1) := by omega
    have h2 : 1 + i = i + 1 := by omega
    rw [h1, h2]
  rw [hfun]

lemma children_l_eq (pt : Nat → Bool) (b e parent : Nat) :
    children_l pt b e parent = spec_children_l pt b e parent := by
  unfold children_l spec_children_l
  rw [primes_l_loop_eq, list_filter_map_eq_flatMap]
  have hfun : (fun i => if pt (parent + (i + 1) * b ^ e) then [(1 + i, parent + (i + 1) * b ^ e)] else [])
      = fun i : Nat => if pt (parent + (i + 1) * b ^ e) then [(i + 1, parent + (i + 1) * b ^ e)] else [] := by
    funext i
    have h2 : 1 + i = i + 1 := by omega
    rw [h2]
  rw [hfun]

lemma list_filter_eq_flatMap {α : Type} (p : α → Bool) :
    ∀ l : List α, l.filter p = l.flatMap (fun x => if p x then [x] else []) := by
  intro l
  induction l with
  | nil => rfl
  | cons a t ih =>
    simp only [List.filter_cons, List.flatMap_cons, ← ih]
    by_cases hp : p a <;> simp [hp]

lemma children_lar_eq (pt : Nat → Bool) (b e parent : Nat) :
    children_lar pt b e parent = spec_children_lar pt b e parent := by
  unfold children_lar spec_children_lar
  rw [primes_lar_outer_eq, list_filter_eq_flatMap, List.flatMap_assoc]
  simp only [List.flatMap_map, Function.comp]
  congr 1
  funext i
  congr 1
  funext j
  have h1 : parent * b + (i + 1) * b ^ e + j + 1 = parent * b + (i + 1) * b ^ e + (j + 1) := by omega
  have h2 : 1 + i = i + 1 := by omega
  have h3 : 1 + j = j + 1 := by omega
  simp [h1, h2, h3]

lemma digit_len_go_zero (b : Nat) : ∀ f, digit_len_go b f 0 = 0 := by
  intro f
  cases f <;> simp [digit_len_go]

lemma digit_len_go_eq (b : Nat) (hb : 2 ≤ b) :
    ∀ n f1 f2, n ≤ f1 → n ≤ f2 → digit_len_go b f1 n = digit_len_go b f2 n := by
  intro n
  induction n using Nat.strong_induction_on with
  | _ n ih =>
    match n with
    | 0 =>
      intro f1 f2 _ _
      rw [digit_len_go_zero, digit_len_go_zero]
    | m + 1 =>
      intro f1 f2 h1 h2
      obtain ⟨f1', rfl⟩ : ∃ k, f1 = k + 1 := ⟨f1 - 1, by omega⟩
      obtain ⟨f2', rfl⟩ : ∃ k, f2 = k + 1 := ⟨f2 - 1, by omega⟩
      simp only [digit_len_go, if_neg (Nat.succ_ne_zero m)]
      have hlt : (m + 1) / b < m + 1 := Nat.div_lt_self (Nat.succ_pos m) (by omega)
      rw [ih ((m + 1) / b) hlt f1' f2' (by omega) (by omega)]

lemma digit_len_succ (b n : Nat) (hb : 2 ≤ b) (hn : n ≠ 0) :
    digit_len b n = digit_len b (n / b) + 1 := by
  obtain ⟨m, rfl⟩ : ∃ m, n = m + 1 := ⟨n - 1, by omega⟩
  have hlt : (m + 1) / b < m + 1 := Nat.div_lt_self (Nat.succ_pos m) (by omega)
  unfold digit_len
  conv_lhs => rw [show m + 1 = m + 1 from rfl]
  simp only [digit_len_go, if_neg (Nat.succ_ne_zero m)]
  rw [digit_len_go_eq b hb ((m + 1) / b) m ((m + 1) / b) (by omega) (le_refl _)]

lemma digit_len_lt (b : Nat) (hb : 2 ≤ b) : ∀ n, n < b ^ digit_len b n := by
  intro n
  induction n using Nat.strong_induction_on with
  | _ n ih =>
    match n with
    | 0 => simp [digit_len, digit_len_go_zero]
    | m + 1 =>
      rw [digit_len_succ b (m + 1) hb (Nat.succ_ne_zero m)]
      have hlt : (m + 1) / b < m + 1 := Nat.div_lt_self (Nat.succ_pos m) (by omega)
      have hrec := ih ((m + 1) / b) hlt
      have hmod : (m + 1) % b < b := Nat.mod_lt (m + 1) (by omega)
      have hdm := Nat.div_add_mod (m + 1) b
      have h1 : m + 1 < b * ((m + 1) / b + 1) := by
        have := Nat.div_add_mod (m + 1) b
        nlinarith
      have h2 : b * ((m + 1) / b + 1) ≤ b * b ^ digit_len b ((m + 1) / b) :=
        Nat.mul_le_mul_left b hrec
      calc m + 1 < b * ((m + 1) / b + 1) := h1
        _ ≤ b * b ^ digit_len b ((m + 1) / b) := h2
        _ = b ^ (digit_len b ((m + 1) / b) + 1) := by rw [pow_succ, Nat.mul_comm]

lemma digit_len_of_bounds (b : Nat) (hb : 2 ≤ b) :
    ∀ e n, b ^ e ≤ n → n < b ^ (e + 1) → digit_len b n = e + 1 := by
  intro e
  induction e with
  | zero =>
    intro n h1 h2
    have hn : n ≠ 0 := by
      have : (1 : Nat) ≤ n := by simpa using h1
      omega
    rw [digit_len_succ b n hb hn]
    have hz : n / b = 0 := Nat.div_eq_of_lt (by simpa using h2)
    rw [hz]
    simp [digit_len, digit_len_go_zero]
  | succ e ihe =>
    intro n h1 h2
    have hbp : 0 < b := by omega
    have hn : n ≠ 0 := by
      have : 0 < b ^ (e + 1) := Nat.pos_pow_of_pos (e + 1) hbp
      omega
    rw [digit_len_succ b n hb hn]
    have l1 : b ^ e ≤ n / b := by
      rw [Nat.le_div_iff_mul_le hbp]
      rw [pow_succ] at h1
      exact h1
    have l2 : n / b < b ^ (e + 1) := by
      rw [Nat.div_lt_iff_lt_mul hbp]
      rw [pow_succ] at h2
      exact h2
    rw [ihe (n / b) l1 l2]

lemma digit_len_append (b e parent d : Nat) (hb : 2 ≤ b) (hlen : digit_len b parent = e)
    (hd1 : 1 ≤ d) (hdb : d < b) : digit_len b (parent + d * b ^ e) = e + 1 := by
  have hup : parent < b ^ e := by
    have := digit_len_lt b hb parent
    rwa [hlen] at this
  have hlow : b ^ e ≤ parent + d * b ^ e := by
    have : 1 * b ^ e ≤ d * b ^ e := Nat.mul_le_mul_right (b ^ e) hd1
    omega
  have hup2 : parent + d * b ^ e < b ^ (e + 1) := by
    have hd' : d ≤ b - 1 := by omega
    have : d * b ^ e ≤ (b - 1) * b ^ e := Nat.mul_le_mul_right (b ^ e) hd'
    have hpow : b ^ (e + 1) = b * b ^ e := by rw [pow_succ, Nat.mul_comm]
    nlinarith
  exact digit_len_of_bounds b hb e (parent + d * b ^ e) hlow hup2

lemma children_r_digit_bounds (pt : Nat → Bool) (b parent : Nat) :
    ∀ dc ∈ children_r pt b parent, 1 ≤ dc.1 ∧ dc.1 < b ∧ dc.2 = parent * b + dc.1 := by
  intro dc hdc
  rw [children_r_eq] at hdc
  unfold spec_children_r at hdc
  simp only [List.mem_filter, List.mem_map, List.mem_range] at hdc
  obtain ⟨⟨i, hi, rfl⟩, _⟩ := hdc
  exact ⟨by omega, by omega, rfl⟩

lemma children_l_digit_bounds (pt : Nat → Bool) (b e parent : Nat) :
    ∀ dc ∈ children_l pt b e parent, 1 ≤ dc.1 ∧ dc.1 < b ∧ dc.2 = parent + dc.1 * b ^ e := by
  intro dc hdc
  rw [children_l_eq] at hdc
  unfold spec_children_l at hdc
  simp only [List.mem_filter, List.mem_map, List.mem_range] at hdc
  obtain ⟨⟨i, hi, rfl⟩, _⟩ := hdc
  exact ⟨by omega, by omega, rfl⟩

lemma primes_r_mem (pt : Nat → Bool) (b : Nat) :
    ∀ f parent x, x ∈ primes_r pt b f parent → x = 255 ∨ (1 ≤ x ∧ x < b) := by
  intro f
  induction f with
  | zero =>
    intro parent x hx
    simp only [primes_r, List.mem_singleton] at hx
    exact Or.inl hx
  | succ n ih =>
    intro parent x hx
    simp only [primes_r, List.mem_append, List.mem_flatMap, List.mem_cons,
      List.mem_singleton] at hx
    rcases hx with ⟨dc, hdc, hx⟩ | hx
    · rcases hx with rfl | hx
      · have h := children_r_digit_bounds pt b parent dc hdc
        exact Or.inr ⟨h.1, h.2.1⟩
      · exact ih dc.2 x hx
    · simp only [List.not_mem_nil, or_false] at hx
      exact Or.inl hx

lemma primes_l_mem (pt : Nat → Bool) (b : Nat) :
    ∀ f e parent x, x ∈ primes_l pt b f e parent → x = 255 ∨ (1 ≤ x ∧ x < b) := by
  intro f
  induction f with
  | zero =>
    intro e parent x hx
    simp only [primes_l, List.mem_singleton] at hx
    exact Or.inl hx
  | succ n ih =>
    intro e parent x hx
    simp only [primes_l, List.mem_append, List.mem_flatMap, List.mem_cons,
      List.mem_singleton] at hx
    rcases hx with ⟨dc, hdc, hx⟩ | hx
    · rcases hx with rfl | hx
      · have h := children_l_digit_bounds pt b e parent dc hdc
        exact Or.inr ⟨h.1, h.2.1⟩
      · exact ih (e + 1) dc.2 x hx
    · simp only [List.not_mem_nil, or_false] at hx
      exact Or.inl hx

/-- C1: for every base `b ∈ [2,255]` (only `2 ≤ b` is needed), every parent
value and every recursion depth, the RIGHT-mode enumerator derives each
candidate child as `parent*b + digit` and the LEFT-mode enumerator as
`parent + digit*b^e`, where the exponent `e` is the parent's total digit
length in base `b` (third conjunct: appending a nonzero digit at exponent
`e` to a value of digit length `e` yields digit length `e+1`, so the
exponent `rlen + depth - 1` always equals the parent's digit length); the
candidate digits are tried in ascending order `1, 2, ..., b-1` (`List.range`
is ascending and digit `0` is never formed), and the enumerator recurses
into exactly the oracle-accepted candidates (the `filter`). -/
theorem claim_C1 (pt : Nat → Bool) (b f e parent : Nat) (hb : 2 ≤ b) :
    primes_r pt b (f + 1) parent
        = (spec_children_r pt b parent).flatMap (fun dc => dc.1 :: primes_r pt b f dc.2) ++ [255]
      ∧ primes_l pt b (f + 1) e parent
        = (spec_children_l pt b e parent).flatMap (fun dc => dc.1 :: primes_l pt b f (e + 1) dc.2)
            ++ [255]
      ∧ (∀ d, digit_len b parent = e → 1 ≤ d → d < b →
          digit_len b (parent + d * b ^ e) = e + 1) := by
  refine ⟨?_, ?_, ?_⟩
  · simp only [primes_r]
    rw [children_r_eq]
  · simp only [primes_l]
    rw [children_l_eq]
  · intro d h1 h2 h3
    exact digit_len_append b e parent d hb h1 h2 h3

theorem claim_C1_witness :
    primes_r probab_prime 10 (1 + 1) 3
        = (spec_children_r probab_prime 10 3).flatMap
            (fun dc => dc.1 :: primes_r probab_prime 10 1 dc.2) ++ [255]
      ∧ primes_l probab_prime 10 (1 + 1) 1 3
        = (spec_children_l probab_prime 10 1 3).flatMap
            (fun dc => dc.1 :: primes_l probab_prime 10 1 (1 + 1) dc.2) ++ [255]
      ∧ (∀ d, digit_len 10 3 = 1 → 1 ≤ d → d < 10 →
          digit_len 10 (3 + d * 10 ^ 1) = 1 + 1) :=
  claim_C1 probab_prime 10 1 1 3 (by decide)

/-- C6 counterexample: with base 10 the right-digit loop of `primes_lar`
performs `base-1 = 9` forward `+1` mutations in one left-digit pass — the
final frame value is `start + 9`, not `start + 8` as the claim's
"`b-2` right-digit increments" would have it. -/
theorem claim_C6_counterexample :
    (primes_lar_inner probab_prime (10 - 1) 130 1).2 = 130 + (10 - 1)
      ∧ 130 + (10 - 1) ≠ 130 + (10 - 2) := by decide

/-- C6 (amended: the LEFT_AND_RIGHT right-digit loop performs `base-1`
increments per pass, not `base-2`, and they are undone by subtracting
`base-1`): at every recursive call the frame holds exactly the value given
by the mode's append rule — `parent*b + d` in RIGHT mode (conjunct 1) and
`parent*b + dl*b^e + dr` in LEFT_AND_RIGHT mode (conjunct 2); one
right-digit loop of `cnt` iterations accumulates exactly `cnt` forward
increments (conjunct 3, with `cnt = base-1` in the program), and the
`mpz_sub_ui(..., base-1)` backtrack makes the next left-digit pass resume
from exactly the pass value `v + P` (conjunct 4), so every forward
arithmetic mutation of a frame is matched by an inverse mutation. -/
theorem claim_C6 (pt : Nat → Bool) (b P e parent v dl dr cnt : Nat) (hb : 2 ≤ b) :
    children_r pt b parent = spec_children_r pt b parent
      ∧ children_lar pt b e parent = spec_children_lar pt b e parent
      ∧ (primes_lar_inner pt cnt v dr).2 = v + cnt
      ∧ primes_lar_outer pt b P (cnt + 1) v dl
          = (primes_lar_inner pt (b - 1) (v + P) 1).1.map (fun x => (dl, x.1, x.2))
              ++ primes_lar_outer pt b P cnt (v + P) (dl + 1) :=
  ⟨children_r_eq pt b parent, children_lar_eq pt b e parent,
    primes_lar_inner_snd pt cnt v dr, primes_lar_outer_step pt b P cnt v dl⟩

theorem claim_C6_witness :
    children_r probab_prime 10 3 = spec_children_r probab_prime 10 3
      ∧ children_lar probab_prime 10 2 3 = spec_children_lar probab_prime 10 2 3
      ∧ (primes_lar_inner probab_prime 2 30 1).2 = 30 + 2
      ∧ primes_lar_outer probab_prime 10 100 (2 + 1) 30 1
          = (primes_lar_inner probab_prime (10 - 1) (30 + 100) 1).1.map (fun x => (1, x.1, x.2))
              ++ primes_lar_outer probab_prime 10 100 2 (30 + 100) (1 + 1) :=
  claim_C6 probab_prime 10 100 2 3 30 1 1 2 (by decide)

/-- C7 counterexample: in the RIGHT-mode stream for base 10, parent 2 and
one allowed level, the branch labels are `3` and `9` (the digits
themselves, for children 23 and 29) — the label `9 = base-1` lies outside
`0..base-2`, refuting "every branch-label byte lies in the range
`0..base-2` (the emitted byte is digit minus 1)". -/
theorem claim_C7_counterexample :
    primes_r probab_prime 10 1 2 = [3, 255, 9, 255, 255]
      ∧ ¬ (∀ x ∈ primes_r probab_prime 10 1 2, x = 255 ∨ x ≤ 10 - 2) := by decide

/-- C7 (amended: label bytes encode the appended digit directly — the byte
is the digit itself, in range `1..base-1` — not digit minus one in
`0..base-2`): every byte of a RIGHT- or LEFT-mode subtree stream is either
the terminator `255` or a branch label lying in `1..base-1`, a range
disjoint from the terminator since `base ≤ 255`; and each RIGHT-mode label
byte equals the appended digit `d` of the child `parent*b + d`. -/
theorem claim_C7 (pt : Nat → Bool) (b f e parent : Nat) (hb : 2 ≤ b) (hb' : b ≤ 255) :
    (∀ x ∈ primes_r pt b f parent, x = 255 ∨ (1 ≤ x ∧ x < b ∧ x ≠ 255))
      ∧ (∀ x ∈ primes_l pt b f e parent, x = 255 ∨ (1 ≤ x ∧ x < b ∧ x ≠ 255))
      ∧ (∀ dc ∈ children_r pt b parent, 1 ≤ dc.1 ∧ dc.1 < b ∧ dc.2 = parent * b + dc.1) := by
  refine ⟨?_, ?_, children_r_digit_bounds pt b parent⟩
  · intro x hx
    rcases primes_r_mem pt b f parent x hx with h | h
    · exact Or.inl h
    · exact Or.inr ⟨h.1, h.2, by omega⟩
  · intro x hx
    rcases primes_l_mem pt b f e parent x hx with h | h
    · exact Or.inl h
    · exact Or.inr ⟨h.1, h.2, by omega⟩

theorem claim_C7_witness :
    (∀ x ∈ primes_r probab_prime 10 2 7, x = 255 ∨ (1 ≤ x ∧ x < 10 ∧ x ≠ 255))
      ∧ (∀ x ∈ primes_l probab_prime 10 2 1 7, x = 255 ∨ (1 ≤ x ∧ x < 10 ∧ x ≠ 255))
      ∧ (∀ dc ∈ children_r probab_prime 10 7, 1 ≤ dc.1 ∧ dc.1 < 10 ∧ dc.2 = 7 * 10 + dc.1) :=
  claim_C7 probab_prime 10 2 1 7 (by decide) (by decide)

lemma primes_r_loop_length (pt : Nat → Bool) :
    ∀ cnt v d, (primes_r_loop pt cnt v d).length ≤ cnt := by
  intro cnt
  induction cnt with
  | zero => intro v d; simp [primes_r_loop]
  | succ n ih =>
    intro v d
    simp only [primes_r_loop, List.length_append]
    have h1 : (if pt (v + 1) then [(d, v + 1)] else []).length ≤ 1 := by
      by_cases hp : pt (v + 1) <;> simp [hp]
    have h2 := ih (v + 1) (d + 1)
    omega

lemma primes_l_loop_length (pt : Nat → Bool) (P : Nat) :
    ∀ cnt v d, (primes_l_loop pt P cnt v d).length ≤ cnt := by
  intro cnt
  induction cnt with
  | zero => intro v d; simp [primes_l_loop]
  | succ n ih =>
    intro v d
    simp only [primes_l_loop, List.length_append]
    have h1 : (if pt (v + P) then [(d, v + P)] else []).length ≤ 1 := by
      by_cases hp : pt (v + P) <;> simp [hp]
    have h2 := ih (v + P) (d + 1)
    omega

lemma children_r_length (pt : Nat → Bool) (b parent : Nat) :
    (children_r pt b parent).length ≤ b - 1 :=
  primes_r_loop_length pt (b - 1) (parent * b) 1

lemma children_l_length (pt : Nat → Bool) (b e parent : Nat) :
    (children_l pt b e parent).length ≤ b - 1 :=
  primes_l_loop_length pt (b ^ e) (b - 1) parent 1

lemma children_lor_length (pt : Nat → Bool) (b e parent : Nat) :
    (children_lor pt b e parent).length ≤ 2 * (b - 1) := by
  unfold children_lor
  simp only [List.length_append, List.length_map]
  have h1 := primes_l_loop_length pt (b ^ e) (b - 1) parent 1
  have h2 := primes_r_loop_length pt (b - 1) (parent * b) 1
  omega

lemma primes_lar_inner_length (pt : Nat → Bool) :
    ∀ cnt v dr, (primes_lar_inner pt cnt v dr).1.length ≤ cnt := by
  intro cnt
  induction cnt with
  | zero => intro v dr; simp [primes_lar_inner]
  | succ n ih =>
    intro v dr
    simp only [primes_lar_inner, List.length_append]
    have h1 : (if pt (v + 1) then [(dr, v + 1)] else []).length ≤ 1 := by
      by_cases hp : pt (v + 1) <;> simp [hp]
    have h2 := ih (v + 1) (dr + 1)
    omega

lemma primes_lar_outer_length (pt : Nat → Bool) (b P : Nat) :
    ∀ cnt v dl, (primes_lar_outer pt b P cnt v dl).length ≤ cnt * (b - 1) := by
  intro cnt
  induction cnt with
  | zero => intro v dl; simp [primes_lar_outer]
  | succ n ih =>
    intro v dl
    rw [primes_lar_outer_step]
    simp only [List.length_append, List.length_map]
    have h1 := primes_lar_inner_length pt (b - 1) (v + P) 1
    have h2 := ih (v + P) (dl + 1)
    have : (n + 1) * (b - 1) = n * (b - 1) + (b - 1) := by ring
    omega

lemma children_lar_length (pt : Nat → Bool) (b e parent : Nat) :
    (children_lar pt b e parent).length ≤ (b - 1) * (b - 1) :=
  primes_lar_outer_length pt b (b ^ e) (b - 1) (parent * b) 1

lemma counts_r_mem (pt : Nat → Bool) (b : Nat) :
    ∀ f parent c, c ∈ counts_r pt b f parent → c ≤ b - 1 := by
  intro f
  induction f with
  | zero =>
    intro parent c hc
    simp only [counts_r, List.mem_singleton] at hc
    omega
  | succ n ih =>
    intro parent c hc
    simp only [counts_r, List.mem_append, List.mem_flatMap, List.mem_singleton] at hc
    rcases hc with ⟨dc, _, hc⟩ | rfl
    · exact ih dc.2 c hc
    · exact children_r_length pt b parent

lemma counts_l_mem (pt : Nat → Bool) (b : Nat) :
    ∀ f e parent c, c ∈ counts_l pt b f e parent → c ≤ b - 1 := by
  intro f
  induction f with
  | zero =>
    intro e parent c hc
    simp only [counts_l, List.mem_singleton] at hc
    omega
  | succ n ih =>
    intro e parent c hc
    simp only [counts_l, List.mem_append, List.mem_flatMap, List.mem_singleton] at hc
    rcases hc with ⟨dc, _, hc⟩ | rfl
    · exact ih (e + 1) dc.2 c hc
    · exact children_l_length pt b e parent

lemma counts_lor_mem (pt : Nat → Bool) (b : Nat) :
    ∀ f e parent c, c ∈ counts_lor pt b f e parent → c ≤ 2 * (b - 1) := by
  intro f
  induction f with
  | zero =>
    intro e parent c hc
    simp only [counts_lor, List.mem_singleton] at hc
    omega
  | succ n ih =>
    intro e parent c hc
    simp only [counts_lor, List.mem_append, List.mem_flatMap, List.mem_singleton] at hc
    rcases hc with ⟨dc, _, hc⟩ | rfl
    · exact ih (e + 1) dc.2.2 c hc
    · exact children_lor_length pt b e parent

lemma counts_lar_mem (pt : Nat → Bool) (b : Nat) :
    ∀ f e parent c, c ∈ counts_lar pt b f e parent → c ≤ (b - 1) * (b - 1) := by
  intro f
  induction f with
  | zero =>
    intro e parent c hc
    simp only [counts_lar, List.mem_singleton] at hc
    omega
  | succ n ih =>
    intro e parent c hc
    simp only [counts_lar, List.mem_append, List.mem_flatMap, List.mem_singleton] at hc
    rcases hc with ⟨dc, _, hc⟩ | rfl
    · exact ih (e + 2) dc.2.2 c hc
    · exact children_lar_length pt b e parent

/-- C5: for every base `b ≥ 2`, every node of the enumerated tree has at
most `b-1` prime children in RIGHT and LEFT modes, at most `2*(b-1)` in
LEFT_OR_RIGHT mode, and at most `(b-1)^2` in LEFT_AND_RIGHT mode; hence
every per-node children counter recorded by the statistics aggregator
(`_g_counts[depth][children]`) stays within these bounds and strictly below
its table's size `_g_max_children` (`b`, `2*b`, `b*b` respectively). -/
theorem claim_C5 (pt : Nat → Bool) (b f e parent : Nat) (hb : 2 ≤ b) :
    (∀ c ∈ counts_r pt b f parent, c ≤ b - 1 ∧ c < max_children_rl b)
      ∧ (∀ c ∈ counts_l pt b f e parent, c ≤ b - 1 ∧ c < max_children_rl b)
      ∧ (∀ c ∈ counts_lor pt b f e parent, c ≤ 2 * (b - 1) ∧ c < max_children_lor b)
      ∧ (∀ c ∈ counts_lar pt b f e parent, c ≤ (b - 1) ^ 2 ∧ c < max_children_lar b) := by
  refine ⟨?_, ?_, ?_, ?_⟩
  · intro c hc
    have h := counts_r_mem pt b f parent c hc
    exact ⟨h, by unfold max_children_rl; omega⟩
  · intro c hc
    have h := counts_l_mem pt b f e parent c hc
    exact ⟨h, by unfold max_children_rl; omega⟩
  · intro c hc
    have h := counts_lor_mem pt b f e parent c hc
    exact ⟨h, by unfold max_children_lor; omega⟩
  · intro c hc
    have h := counts_lar_mem pt b f e parent c hc
    have hsq : (b - 1) ^ 2 = (b - 1) * (b - 1) := by ring
    refine ⟨by omega, ?_⟩
    unfold max_children_lar
    obtain ⟨m, rfl⟩ : ∃ m, b = m + 2 := ⟨b - 2, by omega⟩
    have hm : (m + 2) - 1 = m + 1 := by omega
    rw [hm] at h
    nlinarith

theorem claim_C5_witness :
    (∀ c ∈ counts_r probab_prime 10 2 2, c ≤ 10 - 1 ∧ c < max_children_rl 10)
      ∧ (∀ c ∈ counts_l probab_prime 10 2 1 2, c ≤ 10 - 1 ∧ c < max_children_rl 10)
      ∧ (∀ c ∈ counts_lor probab_prime 10 2 1 2, c ≤ 2 * (10 - 1) ∧ c < max_children_lor 10)
      ∧ (∀ c ∈ counts_lar probab_prime 10 2 1 2, c ≤ (10 - 1) ^ 2 ∧ c < max_children_lar 10) :=
  claim_C5 probab_prime 10 2 1 2 (by decide)

/-- C10: with base 10, mode LEFT_OR_RIGHT, no explicit root and maximum
length 2, the enumerator visits the prime 37 twice — once in root 3's
subtree (right-append of digit 7) and once in root 7's subtree (left-append
of digit 3) — so the emitted node values of an LOR run form a multiset, not
a set (no deduplication is performed). -/
theorem claim_C10 :
    (visit_lor_init probab_prime 10 2).count 37 = 2
      ∧ 37 ∈ visit_lor probab_prime 10 1 1 3
      ∧ 37 ∈ visit_lor probab_prime 10 1 1 7
      ∧ ¬ (visit_lor_init probab_prime 10 2).Nodup := by decide

/-- C2 (code bug): the loop of `is_r_truncprime` divides by the base twice
per iteration (once inside the condition via `mpz_div_ui`'s side effect and
once at the loop bottom), so every other right-truncation is never
primality-tested.  At `a = 43`, `b = 10` the right-truncations are 43 and
4; 4 = 43/10 is composite, so the claimed contract (second and third
conjunct) requires `false`, but the checker returns `true`. -/
theorem claim_C2 :
    is_r_truncprime probab_prime 43 10 = true
      ∧ probab_prime (43 / 10) = false
      ∧ spec_r_truncprime probab_prime 10 43 = false := by decide

lemma grow_powers_length (b : Nat) : ∀ cnt last, (grow_powers b last cnt).length = cnt := by
  intro cnt
  induction cnt with
  | zero => intro last; rfl
  | succ n ih =>
    intro last
    simp [grow_powers, ih]

lemma grow_powers_getD (b : Nat) :
    ∀ cnt t j, j < cnt → (grow_powers b (b ^ t) cnt).getD j 0 = b ^ (t + 1 + j) := by
  intro cnt
  induction cnt with
  | zero => intro t j hj; omega
  | succ n ih =>
    intro t j hj
    match j with
    | 0 =>
      show (grow_powers b (b ^ t) (n + 1)).getD 0 0 = b ^ (t + 1)
      simp [grow_powers, ← pow_succ]
    | j + 1 =>
      have step : grow_powers b (b ^ t) (n + 1) = b ^ t * b :: grow_powers b (b ^ t * b) n := rfl
      rw [step]
      simp only [List.getD_cons_succ]
      rw [← pow_succ]
      have := ih (t + 1) j (by omega)
      rw [this]
      congr 1
      omega

/-- C9: assuming the power-table invariant `pow[i] = b^i` (which holds for
the initial table `[1]` from `init_globals`), `get_power b tbl p` returns
`b^p`; afterwards the table length equals `max (previous length) (p+1)`;
entries below the previous length are left unchanged (never recomputed);
the length never decreases; and the invariant `pow[i] = b^i` holds for the
whole updated table — so it is preserved by every operation. -/
theorem claim_C9 (b p : Nat) (tbl : List Nat) (hne : tbl ≠ [])
    (hinv : ∀ i < tbl.length, tbl.getD i 0 = b ^ i) :
    (get_power b tbl p).1 = b ^ p
      ∧ (get_power b tbl p).2.length = max tbl.length (p + 1)
      ∧ (∀ i < tbl.length, (get_power b tbl p).2.getD i 0 = tbl.getD i 0)
      ∧ tbl.length ≤ (get_power b tbl p).2.length
      ∧ (∀ i < (get_power b tbl p).2.length, (get_power b tbl p).2.getD i 0 = b ^ i) := by
  have hlen0 : 0 < tbl.length := List.length_pos.mpr hne
  by_cases hcase : tbl.length ≤ p
  · have hlast : tbl.getD (tbl.length - 1) 0 = b ^ (tbl.length - 1) :=
      hinv (tbl.length - 1) (by omega)
    have hgp : get_power b tbl p
        = ((tbl ++ grow_powers b (tbl.getD (tbl.length - 1) 0) (p + 1 - tbl.length)).getD p 0,
            tbl ++ grow_powers b (tbl.getD (tbl.length - 1) 0) (p + 1 - tbl.length)) := by
      unfold get_power
      rw [if_pos hcase]
    have hglen : (grow_powers b (tbl.getD (tbl.length - 1) 0) (p + 1 - tbl.length)).length
        = p + 1 - tbl.length := grow_powers_length b _ _
    have htbl' : (tbl ++ grow_powers b (tbl.getD (tbl.length - 1) 0) (p + 1 - tbl.length)).length
        = p + 1 := by
      simp only [List.length_append, hglen]
      omega
    have hget : ∀ i < p + 1,
        (tbl ++ grow_powers b (tbl.getD (tbl.length - 1) 0) (p + 1 - tbl.length)).getD i 0
          = b ^ i := by
      intro i hi
      by_cases hilt : i < tbl.length
      · rw [List.getD_append _ _ _ _ hilt]
        exact hinv i hilt
      · rw [List.getD_append_right _ _ _ _ (by omega)]
        rw [hlast]
        have hj : i - tbl.length < p + 1 - tbl.length := by omega
        rw [grow_powers_getD b (p + 1 - tbl.length) (tbl.length - 1) (i - tbl.length) hj]
        congr 1
        omega
    rw [hgp]
    refine ⟨hget p (by omega), ?_, ?_, ?_, ?_⟩
    · simp only [htbl']
      omega
    · intro i hi
      exact (List.getD_append _ _ _ _ hi)
    · simp only [htbl']
      omega
    · simp only [htbl']
      exact hget
  · have hgp : get_power b tbl p = (tbl.getD p 0, tbl) := by
      unfold get_power
      rw [if_neg hcase]
    rw [hgp]
    refine ⟨hinv p (by omega), ?_, fun i _ => rfl, le_refl _, hinv⟩
    show tbl.length = max tbl.length (p + 1)
    omega

theorem claim_C9_witness :
    (get_power 3 [1] 4).1 = 3 ^ 4
      ∧ (get_power 3 [1] 4).2.length = max (List.length [1]) (4 + 1)
      ∧ (∀ i < List.length ([1] : List Nat), (get_power 3 [1] 4).2.getD i 0 = List.getD [1] i 0)
      ∧ List.length ([1] : List Nat) ≤ (get_power 3 [1] 4).2.length
      ∧ (∀ i < (get_power 3 [1] 4).2.length, (get_power 3 [1] 4).2.getD i 0 = 3 ^ i) :=
  claim_C9 3 4 [1] (by decide) (by decide)

lemma hash_swap_eq_spec (h : Nat) (hh : h < 2 ^ 64) : hash_swap h = spec_rot32 h := by
  unfold hash_swap spec_rot32
  rw [Nat.shiftRight_eq_div_pow, Nat.shiftLeft_eq]
  have hmod : (h * 2 ^ 32) % 2 ^ 64 = (h % 2 ^ 32) * 2 ^ 32 := by
    have h64 : (2 : Nat) ^ 64 = 2 ^ 32 * 2 ^ 32 := by norm_num
    rw [h64, Nat.mul_mod_mul_right]
  rw [hmod]
  have hb : h / 2 ^ 32 < 2 ^ 32 := by
    apply Nat.div_lt_of_lt_mul
    calc h < 2 ^ 64 := hh
      _ = 2 ^ 32 * 2 ^ 32 := by norm_num
  have hor := Nat.mul_add_lt_is_or hb (h % 2 ^ 32)
  rw [Nat.mul_comm (2 ^ 32) (h % 2 ^ 32)] at hor
  rw [Nat.or_comm]
  exact hor.symm

lemma hash_swap_lt (h : Nat) (hh : h < 2 ^ 64) : hash_swap h < 2 ^ 64 := by
  unfold hash_swap
  apply Nat.or_lt_two_pow
  · rw [Nat.shiftRight_eq_div_pow]
    calc h / 2 ^ 32 ≤ h := Nat.div_le_self h (2 ^ 32)
      _ < 2 ^ 64 := hh
  · exact Nat.mod_lt _ (by norm_num)

lemma hash_update_lt (h d c : Nat) (hh : h < 2 ^ 64) : hash_update h d c < 2 ^ 64 := by
  unfold hash_update
  exact Nat.xor_lt_two_pow hh (hash_swap_lt _ (Nat.mod_lt _ (by norm_num)))

lemma init_roots_hash_r_eq (pt : Nat → Bool) (b f : Nat) :
    ∀ cnt r h, init_roots_hash_r pt b f cnt r h
      = (((List.range cnt).map (fun i => r + i)).filter pt).foldl
          (fun h x => hash_update h x (hash_r pt b f x)) h := by
  intro cnt
  induction cnt with
  | zero => intro r h; rfl
  | succ n ih =>
    intro r h
    rw [List.range_succ_eq_map]
    simp only [init_roots_hash_r, List.map_cons, List.map_map, List.filter_cons, ih (r + 1)]
    have hfun : ((fun i => r + i) ∘ Nat.succ) = fun i => r + 1 + i := by
      funext i
      simp [Function.comp]
      omega
    rw [hfun]
    by_cases hp : pt r
    · simp only [Nat.add_zero, hp, if_pos, List.foldl_cons]
    · simp only [Nat.add_zero, hp, if_neg, Bool.false_eq_true, not_false_iff]

/-- C4: the statistics-mode hash is computed in exact unsigned 64-bit
arithmetic as the claimed fold.  Conjunct 1: `HASH_SWAP` is the claimed
`rot32` (exchange of the upper and lower 32-bit halves).  Conjunct 2:
`HASH_UPDATE h d c = h XOR rot32(8191*(127*h - d) + c)` with `127*h - d`
taken modulo `2^64` (two's-complement subtraction).  Conjunct 3: every
hash value stays below `2^64`.  Conjunct 4: a RIGHT-mode node's hash is the
fold of `HASH_UPDATE` over its prime children `(d, parent*b+d)` in
traversal order, starting from the low 64 bits of the node value shifted
right by one.  Conjunct 5: a LEFT_OR_RIGHT node folds its left-append
children with path number `d` and then its right-append children with path
number `base + d`.  Conjunct 6: a LEFT node folds its children
`(d, parent + d*b^e)` with path number the appended digit `d`.  Conjunct 7:
a LEFT_AND_RIGHT node folds its children
`(dl, dr, parent*b + dl*b^e + dr)` with path number
`left_digit*base + right_digit`.  Conjunct 8: the value reported at the end
of a no-root RIGHT run is the hash of the synthetic root: the fold over the
accepted 1-digit roots starting from `HASH_INIT` of the value 0. -/
theorem claim_C4 (pt : Nat → Bool) (b f e parent maxlen h d c : Nat) (hh : h < 2 ^ 64) :
    hash_swap h = spec_rot32 h
      ∧ hash_update h d c
          = h ^^^ spec_rot32 ((8191 * ((127 * h + (2 ^ 64 - d % 2 ^ 64)) % 2 ^ 64) + c) % 2 ^ 64)
      ∧ hash_update h d c < 2 ^ 64
      ∧ hash_r pt b (f + 1) parent
          = (spec_children_r pt b parent).foldl
              (fun h dc => hash_update h dc.1 (hash_r pt b f dc.2)) ((parent % 2 ^ 64) >>> 1)
      ∧ hash_lor pt b (f + 1) e parent
          = (spec_children_r pt b parent).foldl
              (fun h dc => hash_update h (b + dc.1) (hash_lor pt b f (e + 1) dc.2))
              ((spec_children_l pt b e parent).foldl
                (fun h dc => hash_update h dc.1 (hash_lor pt b f (e + 1) dc.2))
                ((parent % 2 ^ 64) >>> 1))
      ∧ hash_l pt b (f + 1) e parent
          = (spec_children_l pt b e parent).foldl
              (fun h dc => hash_update h dc.1 (hash_l pt b f (e + 1) dc.2))
              ((parent % 2 ^ 64) >>> 1)
      ∧ hash_lar pt b (f + 1) e parent
          = (spec_children_lar pt b e parent).foldl
              (fun h dd => hash_update h (dd.1 * b + dd.2.1) (hash_lar pt b f (e + 2) dd.2.2))
              ((parent % 2 ^ 64) >>> 1)
      ∧ hash_r_init pt b maxlen
          = (if maxlen < 1 then 0
             else (((List.range (b - 2)).map (fun i => 2 + i)).filter pt).foldl
               (fun h r => hash_update h r (hash_r pt b (maxlen - 1) r)) (hash_init 0)) := by
  refine ⟨hash_swap_eq_spec h hh, ?_, hash_update_lt h d c hh, ?_, ?_, ?_, ?_, ?_⟩
  · unfold hash_update hash_child hash_digit
    rw [hash_swap_eq_spec _ (Nat.mod_lt _ (by norm_num))]
  · simp only [hash_r]
    rw [children_r_eq]
    rfl
  · simp only [hash_lor]
    unfold children_lor
    rw [List.foldl_append, List.foldl_map, List.foldl_map]
    rw [show primes_l_loop pt (b ^ e) (b - 1) parent 1 = children_l pt b e parent from rfl,
      show primes_r_loop pt (b - 1) (parent * b) 1 = children_r pt b parent from rfl,
      children_l_eq, children_r_eq]
    rfl
  · simp only [hash_l]
    rw [children_l_eq]
    rfl
  · simp only [hash_lar]
    rw [children_lar_eq]
    rfl
  · unfold hash_r_init
    by_cases hm : maxlen < 1
    · rw [if_pos hm, if_pos hm]
    · rw [if_neg hm, if_neg hm, init_roots_hash_r_eq]
      have hfun : (fun i => 2 + i) = fun i : Nat => 2 + i := rfl
      rfl

theorem claim_C4_witness :
    hash_swap 3 = spec_rot32 3
      ∧ hash_update 3 7 5
          = 3 ^^^ spec_rot32 ((8191 * ((127 * 3 + (2 ^ 64 - 7 % 2 ^ 64)) % 2 ^ 64) + 5) % 2 ^ 64)
      ∧ hash_update 3 7 5 < 2 ^ 64
      ∧ hash_r probab_prime 10 (1 + 1) 2
          = (spec_children_r probab_prime 10 2).foldl
              (fun h dc => hash_update h dc.1 (hash_r probab_prime 10 1 dc.2)) ((2 % 2 ^ 64) >>> 1)
      ∧ hash_lor probab_prime 10 (1 + 1) 1 2
          = (spec_children_r probab_prime 10 2).foldl
              (fun h dc => hash_update h (10 + dc.1) (hash_lor probab_prime 10 1 (1 + 1) dc.2))
              ((spec_children_l probab_prime 10 1 2).foldl
                (fun h dc => hash_update h dc.1 (hash_lor probab_prime 10 1 (1 + 1) dc.2))
                ((2 % 2 ^ 64) >>> 1))
      ∧ hash_l probab_prime 10 (1 + 1) 1 2
          = (spec_children_l probab_prime 10 1 2).foldl
              (fun h dc => hash_update h dc.1 (hash_l probab_prime 10 1 (1 + 1) dc.2))
              ((2 % 2 ^ 64) >>> 1)
      ∧ hash_lar probab_prime 10 (1 + 1) 1 2
          = (spec_children_lar probab_prime 10 1 2).foldl
              (fun h dd => hash_update h (dd.1 * 10 + dd.2.1) (hash_lar probab_prime 10 1 (1 + 2) dd.2.2))
              ((2 % 2 ^ 64) >>> 1)
      ∧ hash_r_init probab_prime 10 2
          = (if (2 : Nat) < 1 then 0
             else (((List.range (10 - 2)).map (fun i => 2 + i)).filter probab_prime).foldl
               (fun h r => hash_update h r (hash_r probab_prime 10 (2 - 1) r)) (hash_init 0)) :=
  claim_C4 probab_prime 10 1 1 2 2 3 7 5 (by decide)

lemma tree_convert_r_loop (pt : Nat → Bool) (b : Nat) (hb : 2 ≤ b) (hb' : b ≤ 255) (f : Nat)
    (hL : ∀ c stack rest, tree_convert_r b (⟨c * b, 0⟩ :: stack) (primes_r pt b f c ++ rest)
      = Option.map (fun r => (visit_r pt b f c ++ r.1, r.2)) (tree_convert_r b stack rest)) :
    ∀ cnt d0 dp P stack rest, d0 + 1 + cnt ≤ b → dp ≤ d0 →
      tree_convert_r b (⟨P * b + dp, dp⟩ :: stack)
          ((primes_r_loop pt cnt (P * b + d0) (d0 + 1)).flatMap
            (fun dc => dc.1 :: primes_r pt b f dc.2) ++ 255 :: rest)
        = Option.map
            (fun r => ((primes_r_loop pt cnt (P * b + d0) (d0 + 1)).flatMap
              (fun dc => dc.2 :: visit_r pt b f dc.2) ++ r.1, r.2))
            (tree_convert_r b stack rest) := by
  intro cnt
  induction cnt with
  | zero =>
    intro d0 dp P stack rest h1 h2
    simp only [primes_r_loop, List.flatMap_nil, List.nil_append]
    simp only [tree_convert_r, if_pos rfl]
    cases tree_convert_r b stack rest with
    | none => rfl
    | some r => rfl
  | succ n ih =>
    intro d0 dp P stack rest h1 h2
    have hassoc : P * b + d0 + 1 = P * b + (d0 + 1) := by omega
    simp only [primes_r_loop]
    by_cases hp : pt (P * b + d0 + 1)
    · rw [if_pos hp]
      simp only [List.singleton_append, List.flatMap_cons, List.cons_append, List.append_assoc,
        List.nil_append]
      have hne : ¬ (d0 + 1 = 255) := by omega
      have hcond : dp < d0 + 1 ∧ d0 + 1 < b := ⟨by omega, by omega⟩
      simp only [tree_convert_r, if_neg hne, if_pos hcond]
      have hv : P * b + dp + (d0 + 1 - dp) = P * b + (d0 + 1) := by omega
      rw [hv, hassoc]
      rw [hL (P * b + (d0 + 1)) (⟨P * b + (d0 + 1), d0 + 1⟩ :: stack)
        ((primes_r_loop pt n (P * b + (d0 + 1)) (d0 + 1 + 1)).flatMap
          (fun dc => dc.1 :: primes_r pt b f dc.2) ++ 255 :: rest)]
      rw [ih (d0 + 1) (d0 + 1) P stack rest (by omega) (le_refl _)]
      cases tree_convert_r b stack rest with
      | none => rfl
      | some r => simp
    · rw [if_neg hp]
      simp only [List.nil_append]
      rw [hassoc]
      exact ih (d0 + 1) dp P stack rest (by omega) (by omega)

lemma tree_convert_r_roundtrip (pt : Nat → Bool) (b : Nat) (hb : 2 ≤ b) (hb' : b ≤ 255) :
    ∀ f c stack rest, tree_convert_r b (⟨c * b, 0⟩ :: stack) (primes_r pt b f c ++ rest)
      = Option.map (fun r => (visit_r pt b f c ++ r.1, r.2)) (tree_convert_r b stack rest) := by
  intro f
  induction f with
  | zero =>
    intro c stack rest
    simp only [primes_r, visit_r, List.cons_append, List.nil_append]
    simp only [tree_convert_r, if_pos rfl]
    cases tree_convert_r b stack rest with
    | none => rfl
    | some r => rfl
  | succ n ih =>
    intro c stack rest
    simp only [primes_r, visit_r, List.append_assoc, List.cons_append, List.nil_append]
    have h0 : c * b = c * b + 0 := by omega
    rw [h0]
    have := tree_convert_r_loop pt b hb hb' n ih (b - 1) 0 0 c stack rest (by omega) (le_refl 0)
    simpa only [List.singleton_append, Nat.add_zero] using this

lemma init_roots_r_eq_loop (pt : Nat → Bool) (b f : Nat) :
    ∀ cnt r0, init_roots_r pt b f cnt (r0 + 1)
      = (primes_r_loop pt cnt r0 (r0 + 1)).flatMap (fun dc => dc.1 :: primes_r pt b f dc.2) := by
  intro cnt
  induction cnt with
  | zero => intro r0; rfl
  | succ n ih =>
    intro r0
    simp only [init_roots_r, primes_r_loop, List.flatMap_append, List.cons_append]
    have htail : init_roots_r pt b f n (r0 + 1 + 1)
        = (primes_r_loop pt n (r0 + 1) (r0 + 1 + 1)).flatMap
            (fun dc => dc.1 :: primes_r pt b f dc.2) := ih (r0 + 1)
    rw [htail]
    by_cases hp : pt (r0 + 1) <;> simp [hp]

lemma init_roots_visit_r_eq_loop (pt : Nat → Bool) (b f : Nat) :
    ∀ cnt r0, init_roots_visit_r pt b f cnt (r0 + 1)
      = (primes_r_loop pt cnt r0 (r0 + 1)).flatMap (fun dc => dc.2 :: visit_r pt b f dc.2) := by
  intro cnt
  induction cnt with
  | zero => intro r0; rfl
  | succ n ih =>
    intro r0
    simp only [init_roots_visit_r, primes_r_loop, List.flatMap_append, List.cons_append]
    have htail := ih (r0 + 1)
    rw [htail]
    by_cases hp : pt (r0 + 1) <;> simp [hp]

/-- C3: decoding the RIGHT-mode tree byte stream produced by the enumerator
(including its leading root-marker byte 255) with the reader of
tree_convert.c reproduces exactly the list of node values the enumerator
visited — same elements, same multiplicities, same depth-first order — and
the reader consumes the stream completely without error.  Conjunct 1 covers
an explicit root with any maximal depth `f` (`primes_init_root`); conjunct
2 covers the no-root run (`primes_r_init` with its 1-digit root forest,
decoded against root value 0) for every maximum length. -/
theorem claim_C3 (pt : Nat → Bool) (b f root maxlen : Nat) (hb : 2 ≤ b) (hb' : b ≤ 255) :
    tree_convert_r_main b root (primes_r_tree pt b f root) = some (visit_r pt b f root)
      ∧ tree_convert_r_main b 0 (primes_r_init pt b maxlen) = some (visit_r_init pt b maxlen) := by
  constructor
  · unfold primes_r_tree
    simp only [tree_convert_r_main, if_pos rfl]
    rw [show primes_r pt b f root = primes_r pt b f root ++ [] from (List.append_nil _).symm]
    rw [tree_convert_r_roundtrip pt b hb hb' f root [] []]
    simp [tree_convert_r]
  · by_cases hm : maxlen < 1
    · unfold primes_r_init visit_r_init
      rw [if_pos hm, if_pos hm]
      simp [tree_convert_r_main, tree_convert_r]
    · unfold primes_r_init visit_r_init
      rw [if_neg hm, if_neg hm]
      have e1 : init_roots_r pt b (maxlen - 1) (b - 2) 2
          = (primes_r_loop pt (b - 2) 1 2).flatMap
              (fun dc => dc.1 :: primes_r pt b (maxlen - 1) dc.2) :=
        init_roots_r_eq_loop pt b (maxlen - 1) (b - 2) 1
      have e2 : init_roots_visit_r pt b (maxlen - 1) (b - 2) 2
          = (primes_r_loop pt (b - 2) 1 2).flatMap
              (fun dc => dc.2 :: visit_r pt b (maxlen - 1) dc.2) :=
        init_roots_visit_r_eq_loop pt b (maxlen - 1) (b - 2) 1
      rw [e1, e2]
      simp only [List.cons_append, tree_convert_r_main, if_pos rfl, Nat.zero_mul]
      have e3 := tree_convert_r_loop pt b hb hb' (maxlen - 1)
        (tree_convert_r_roundtrip pt b hb hb' (maxlen - 1)) (b - 2) 1 0 0 [] []
        (by omega) (by omega)
      simp only [Nat.zero_mul, Nat.zero_add] at e3
      rw [show (1 : Nat) + 1 = 2 from rfl] at e3
      rw [e3]
      simp [tree_convert_r]

theorem claim_C3_witness :
    tree_convert_r_main 10 7 (primes_r_tree probab_prime 10 2 7)
        = some (visit_r probab_prime 10 2 7)
      ∧ tree_convert_r_main 10 0 (primes_r_init probab_prime 10 2)
        = some (visit_r_init probab_prime 10 2) :=
  claim_C3 probab_prime 10 2 7 2 (by decide) (by decide)

lemma TP_steps_r_none (pt : Nat → Bool) (s : TP_STATE) (h : TP_step_r pt s = none) :
    ∀ k, TP_steps_r pt k s = ([], s) := by
  intro k
  cases k with
  | zero => rfl
  | succ n => simp [TP_steps_r, h]

lemma TP_steps_r_append (pt : Nat → Bool) :
    ∀ k1 s bs1 s1 k2 bs2 s2, TP_steps_r pt k1 s = (bs1, s1) → TP_steps_r pt k2 s1 = (bs2, s2) →
      TP_steps_r pt (k1 + k2) s = (bs1 ++ bs2, s2) := by
  intro k1
  induction k1 with
  | zero =>
    intro s bs1 s1 k2 bs2 s2 h1 h2
    simp only [TP_steps_r] at h1
    obtain ⟨rfl, rfl⟩ : bs1 = [] ∧ s1 = s := by
      exact ⟨congrArg Prod.fst h1.symm, congrArg Prod.snd h1.symm⟩
    simpa using h2
  | succ n ih =>
    intro s bs1 s1 k2 bs2 s2 h1 h2
    cases hstep : TP_step_r pt s with
    | none =>
      rw [TP_steps_r_none pt s hstep] at h1
      have hb : bs1 = [] := (congrArg Prod.fst h1).symm
      have hs : s1 = s := (congrArg Prod.snd h1).symm
      rw [hs, TP_steps_r_none pt s hstep] at h2
      have hb2 : bs2 = [] := (congrArg Prod.fst h2).symm
      have hs2 : s2 = s := (congrArg Prod.snd h2).symm
      rw [hb, hb2, hs2, TP_steps_r_none pt s hstep]
      rfl
    | some r =>
      obtain ⟨ob, s'⟩ := r
      simp only [TP_steps_r, hstep] at h1
      have hrec : TP_steps_r pt n s' = ((TP_steps_r pt n s').1, (TP_steps_r pt n s').2) := rfl
      have hb1 : bs1 = ob.getD [] ++ (TP_steps_r pt n s').1 := by
        exact (congrArg Prod.fst h1).symm
      have hs1 : s1 = (TP_steps_r pt n s').2 := by
        exact (congrArg Prod.snd h1).symm
      have := ih s' (TP_steps_r pt n s').1 (TP_steps_r pt n s').2 k2 bs2 s2 hrec (hs1 ▸ h2)
      show TP_steps_r pt (n + 1 + k2) s = (bs1 ++ bs2, s2)
      have hnk : n + 1 + k2 = (n + k2) + 1 := by omega
      rw [hnk]
      simp only [TP_steps_r, hstep, this]
      rw [hb1]
      simp [List.append_assoc]

lemma TP_run_r_of_steps (pt : Nat → Bool) :
    ∀ k s bs s', TP_steps_r pt k s = (bs, s') → TP_step_r pt s' = none →
      ∀ fuel, k + 1 ≤ fuel → TP_run_r pt fuel s = some bs := by
  intro k
  induction k with
  | zero =>
    intro s bs s' h1 h2 fuel hf
    simp only [TP_steps_r] at h1
    obtain ⟨rfl, rfl⟩ : bs = [] ∧ s' = s := by
      exact ⟨congrArg Prod.fst h1.symm, congrArg Prod.snd h1.symm⟩
    obtain ⟨fl, rfl⟩ : ∃ m, fuel = m + 1 := ⟨fuel - 1, by omega⟩
    simp [TP_run_r, h2]
  | succ n ih =>
    intro s bs s' h1 h2 fuel hf
    cases hstep : TP_step_r pt s with
    | none =>
      rw [TP_steps_r_none pt s hstep] at h1
      obtain ⟨rfl, rfl⟩ : bs = [] ∧ s' = s := by
        exact ⟨congrArg Prod.fst h1.symm, congrArg Prod.snd h1.symm⟩
      obtain ⟨fl, rfl⟩ : ∃ m, fuel = m + 1 := ⟨fuel - 1, by omega⟩
      simp [TP_run_r, hstep]
    | some r =>
      obtain ⟨ob, s1⟩ := r
      simp only [TP_steps_r, hstep] at h1
      have hb1 : bs = ob.getD [] ++ (TP_steps_r pt n s1).1 := by
        exact (congrArg Prod.fst h1).symm
      have hs1 : s' = (TP_steps_r pt n s1).2 := by
        exact (congrArg Prod.snd h1).symm
      obtain ⟨fl, rfl⟩ : ∃ m, fuel = m + 1 := ⟨fuel - 1, by omega⟩
      have hrec : TP_steps_r pt n s1 = ((TP_steps_r pt n s1).1, (TP_steps_r pt n s1).2) := rfl
      have hrun := ih s1 (TP_steps_r pt n s1).1 (TP_steps_r pt n s1).2 hrec (hs1 ▸ h2) fl (by omega)
      simp [TP_run_r, hstep, hrun, hb1]

lemma TP_step_r_frame (pt : Nat → Bool) (b rlen maxlen n i c v0 v1 : Nat)
    (pfr : TP_FRAME) (crest : List TP_FRAME) :
    TP_step_r pt ⟨b, rlen, maxlen, ⟨n, i, c, v0, v1⟩ :: pfr :: crest⟩
      = (if i = 0 then
          some (some [v0], ⟨b, rlen, maxlen, ⟨n, 1, c, v0, v1⟩ :: pfr :: crest⟩)
        else if maxlen < rlen + (pfr :: crest).length then
          some (none, ⟨b, rlen, maxlen, ⟨n, b, c, v0, v1⟩ :: pfr :: crest⟩)
        else if i < b then
          if pt ((if i = 1 then pfr.n * b else n) + 1) then
            some (none, ⟨b, rlen, maxlen,
              ⟨0, 0, 0, i, 0⟩ ::
                ⟨(if i = 1 then pfr.n * b else n) + 1, i + 1, c + 1, v0, v1⟩ :: pfr :: crest⟩)
          else
            some (none, ⟨b, rlen, maxlen,
              ⟨(if i = 1 then pfr.n * b else n) + 1, i + 1, c, v0, v1⟩ :: pfr :: crest⟩)
        else
          some (some [255], ⟨b, rlen, maxlen, pfr :: crest⟩)) := rfl

lemma hits_limit_r_one_false (pt : Nat → Bool) (b parent : Nat)
    (h : hits_limit_r pt b 1 parent = false) : children_r pt b parent = [] := by
  have h1 : (!(children_r pt b parent).isEmpty) = false := h
  cases hc : children_r pt b parent with
  | nil => rfl
  | cons a t =>
    rw [hc] at h1
    simp at h1

lemma hits_limit_r_two_false (pt : Nat → Bool) (b f parent : Nat)
    (h : hits_limit_r pt b (f + 2) parent = false) :
    ∀ dc ∈ children_r pt b parent, hits_limit_r pt b (f + 1) dc.2 = false := by
  intro dc hdc
  have h1 : (children_r pt b parent).any (fun dc => hits_limit_r pt b (f + 1) dc.2) = false := h
  rw [List.any_eq_false] at h1
  have := h1 dc hdc
  simpa using this

lemma TP_loop_r (pt : Nat → Bool) (b rlen maxlen : Nat) (hb : 2 ≤ b) (phi : Nat)
    (hSUB : TPSubStmt pt b rlen maxlen phi) :
    ∀ cnt i0 n c v0x v1x (pfr : TP_FRAME) (crest : List TP_FRAME),
      i0 + 1 + cnt = b →
      (1 ≤ i0 → n = pfr.n * b + i0) →
      rlen + (pfr :: crest).length + (phi + 1) = maxlen + 1 →
      (phi = 0 → primes_r_loop pt cnt (pfr.n * b + i0) (i0 + 1) = []) →
      (∀ dc ∈ primes_r_loop pt cnt (pfr.n * b + i0) (i0 + 1), hits_limit_r pt b phi dc.2 = false) →
      ∃ k, TP_steps_r pt k ⟨b, rlen, maxlen, ⟨n, i0 + 1, c, v0x, v1x⟩ :: pfr :: crest⟩
          = ((primes_r_loop pt cnt (pfr.n * b + i0) (i0 + 1)).flatMap
              (fun dc => dc.1 :: primes_r pt b phi dc.2) ++ [255],
             ⟨b, rlen, maxlen, pfr :: crest⟩) := by
  intro cnt
  induction cnt with
  | zero =>
    intro i0 n c v0x v1x pfr crest hsum hn harith hw0 hw1
    refine ⟨1, ?_⟩
    have hstep : TP_step_r pt ⟨b, rlen, maxlen, ⟨n, i0 + 1, c, v0x, v1x⟩ :: pfr :: crest⟩
        = some (some [255], ⟨b, rlen, maxlen, pfr :: crest⟩) := by
      rw [TP_step_r_frame]
      rw [if_neg (by omega : ¬(i0 + 1 = 0))]
      rw [if_neg (by omega : ¬(maxlen < rlen + (pfr :: crest).length))]
      rw [if_neg (by omega : ¬(i0 + 1 < b))]
    simp [TP_steps_r, hstep, primes_r_loop]
  | succ m ih =>
    intro i0 n c v0x v1x pfr crest hsum hn harith hw0 hw1
    have hassoc : pfr.n * b + i0 + 1 = pfr.n * b + (i0 + 1) := by omega
    have hval : (if i0 + 1 = 1 then pfr.n * b else n) + 1 = pfr.n * b + i0 + 1 := by
      by_cases h0 : i0 = 0
      · subst h0
        simp
      · rw [if_neg (by omega : ¬(i0 + 1 = 1)), hn (by omega)]
    have hwin : primes_r_loop pt (m + 1) (pfr.n * b + i0) (i0 + 1)
        = (if pt (pfr.n * b + i0 + 1) then [(i0 + 1, pfr.n * b + i0 + 1)] else [])
            ++ primes_r_loop pt m (pfr.n * b + i0 + 1) (i0 + 1 + 1) := rfl
    by_cases hp : pt (pfr.n * b + i0 + 1)
    · have hphi : 1 ≤ phi := by
        rcases Nat.eq_zero_or_pos phi with h0 | h
        · exfalso
          have hempty := hw0 h0
          rw [hwin, if_pos hp] at hempty
          simp at hempty
        · exact h
      have hstep : TP_step_r pt ⟨b, rlen, maxlen, ⟨n, i0 + 1, c, v0x, v1x⟩ :: pfr :: crest⟩
          = some (none, ⟨b, rlen, maxlen,
              ⟨0, 0, 0, i0 + 1, 0⟩ ::
                ⟨pfr.n * b + i0 + 1, i0 + 1 + 1, c + 1, v0x, v1x⟩ :: pfr :: crest⟩) := by
        rw [TP_step_r_frame]
        rw [if_neg (by omega : ¬(i0 + 1 = 0))]
        rw [if_neg (by omega : ¬(maxlen < rlen + (pfr :: crest).length))]
        rw [if_pos (by omega : i0 + 1 < b)]
        rw [hval, if_pos hp]
      have hchild_mem : (i0 + 1, pfr.n * b + i0 + 1)
          ∈ primes_r_loop pt (m + 1) (pfr.n * b + i0) (i0 + 1) := by
        rw [hwin, if_pos hp]
        simp
      have hhits_child : hits_limit_r pt b phi (pfr.n * b + i0 + 1) = false := by
        have := hw1 _ hchild_mem
        simpa using this
      obtain ⟨k1, hk1⟩ := hSUB (i0 + 1) 0
        ⟨pfr.n * b + i0 + 1, i0 + 1 + 1, c + 1, v0x, v1x⟩ (pfr :: crest)
        hphi (by simp only [List.length_cons] at harith ⊢; omega) hhits_child
      have hw0t : phi = 0 → primes_r_loop pt m (pfr.n * b + (i0 + 1)) (i0 + 1 + 1) = [] := by
        intro h0
        omega
      have hw1t : ∀ dc ∈ primes_r_loop pt m (pfr.n * b + (i0 + 1)) (i0 + 1 + 1),
          hits_limit_r pt b phi dc.2 = false := by
        intro dc hdc
        apply hw1
        rw [hwin, if_pos hp, hassoc]
        simp only [List.mem_append, List.mem_singleton]
        right
        exact hdc
      obtain ⟨k2, hk2⟩ := ih (i0 + 1) (pfr.n * b + i0 + 1) (c + 1) v0x v1x pfr crest
        (by omega) (fun _ => by omega) harith hw0t hw1t
      rw [← hassoc] at hk2
      have h1 : TP_steps_r pt 1 ⟨b, rlen, maxlen, ⟨n, i0 + 1, c, v0x, v1x⟩ :: pfr :: crest⟩
          = ([], ⟨b, rlen, maxlen,
              ⟨0, 0, 0, i0 + 1, 0⟩ ::
                ⟨pfr.n * b + i0 + 1, i0 + 1 + 1, c + 1, v0x, v1x⟩ :: pfr :: crest⟩) := by
        simp [TP_steps_r, hstep]
      have h12 := TP_steps_r_append pt k1 _ _ _ k2 _ _ hk1 hk2
      have h012 := TP_steps_r_append pt 1 _ _ _ (k1 + k2) _ _ h1 h12
      refine ⟨1 + (k1 + k2), ?_⟩
      rw [h012]
      rw [hwin, if_pos hp]
      simp [List.append_assoc]
    · have hstep : TP_step_r pt ⟨b, rlen, maxlen, ⟨n, i0 + 1, c, v0x, v1x⟩ :: pfr :: crest⟩
          = some (none, ⟨b, rlen, maxlen,
              ⟨pfr.n * b + i0 + 1, i0 + 1 + 1, c, v0x, v1x⟩ :: pfr :: crest⟩) := by
        rw [TP_step_r_frame]
        rw [if_neg (by omega : ¬(i0 + 1 = 0))]
        rw [if_neg (by omega : ¬(maxlen < rlen + (pfr :: crest).length))]
        rw [if_pos (by omega : i0 + 1 < b)]
        rw [hval, if_neg hp]
      have hw0t : phi = 0 → primes_r_loop pt m (pfr.n * b + (i0 + 1)) (i0 + 1 + 1) = [] := by
        intro h0
        have hempty := hw0 h0
        rw [hwin, if_neg hp] at hempty
        simpa [hassoc] using hempty
      have hw1t : ∀ dc ∈ primes_r_loop pt m (pfr.n * b + (i0 + 1)) (i0 + 1 + 1),
          hits_limit_r pt b phi dc.2 = false := by
        intro dc hdc
        apply hw1
        rw [hwin, if_neg hp, hassoc]
        simpa using hdc
      obtain ⟨k, hk⟩ := ih (i0 + 1) (pfr.n * b + i0 + 1) c v0x v1x pfr crest
        (by omega) (fun _ => by omega) harith hw0t hw1t
      rw [← hassoc] at hk
      have h1 : TP_steps_r pt 1 ⟨b, rlen, maxlen, ⟨n, i0 + 1, c, v0x, v1x⟩ :: pfr :: crest⟩
          = ([], ⟨b, rlen, maxlen,
              ⟨pfr.n * b + i0 + 1, i0 + 1 + 1, c, v0x, v1x⟩ :: pfr :: crest⟩) := by
        simp [TP_steps_r, hstep]
      have h01 := TP_steps_r_append pt 1 _ _ _ k _ _ h1 hk
      refine ⟨1 + k, ?_⟩
      rw [h01]
      rw [hwin, if_neg hp]
      simp

lemma TP_sub_r (pt : Nat → Bool) (b rlen maxlen : Nat) (hb : 2 ≤ b) :
    ∀ phi, TPSubStmt pt b rlen maxlen phi := by
  intro phi
  induction phi using Nat.strong_induction_on with
  | _ phi ih =>
    intro v0x v1x pfr crest hphi harith hhits
    obtain ⟨phi', rfl⟩ : ∃ k, phi = k + 1 := ⟨phi - 1, by omega⟩
    have hSUB : TPSubStmt pt b rlen maxlen phi' := by
      rcases Nat.eq_zero_or_pos phi' with h0 | hpos
      · subst h0
        intro _ _ _ _ h
        omega
      · exact ih phi' (by omega)
    have hch : children_r pt b pfr.n = primes_r_loop pt (b - 1) (pfr.n * b) 1 := rfl
    have hw0 : phi' = 0 → primes_r_loop pt (b - 1) (pfr.n * b + 0) (0 + 1) = [] := by
      intro h0
      subst h0
      have hc := hits_limit_r_one_false pt b pfr.n hhits
      rw [hch] at hc
      simpa using hc
    have hw1 : ∀ dc ∈ primes_r_loop pt (b - 1) (pfr.n * b + 0) (0 + 1),
        hits_limit_r pt b phi' dc.2 = false := by
      intro dc hdc
      rcases Nat.eq_zero_or_pos phi' with h0 | hpos
      · subst h0
        rfl
      · obtain ⟨p2, rfl⟩ : ∃ k, phi' = k + 1 := ⟨phi' - 1, by omega⟩
        apply hits_limit_r_two_false pt b p2 pfr.n hhits
        rw [hch]
        simpa using hdc
    obtain ⟨k, hk⟩ := TP_loop_r pt b rlen maxlen hb phi' hSUB (b - 1) 0 0 0 v0x v1x pfr crest
      (by omega) (by omega) harith hw0 hw1
    have hstep : TP_step_r pt ⟨b, rlen, maxlen, ⟨0, 0, 0, v0x, v1x⟩ :: pfr :: crest⟩
        = some (some [v0x], ⟨b, rlen, maxlen, ⟨0, 1, 0, v0x, v1x⟩ :: pfr :: crest⟩) := by
      rw [TP_step_r_frame, if_pos rfl]
    have h1 : TP_steps_r pt 1 ⟨b, rlen, maxlen, ⟨0, 0, 0, v0x, v1x⟩ :: pfr :: crest⟩
        = ([v0x], ⟨b, rlen, maxlen, ⟨0, 1, 0, v0x, v1x⟩ :: pfr :: crest⟩) := by
      simp [TP_steps_r, hstep]
    have h01 := TP_steps_r_append pt 1 _ _ _ k _ _ h1 hk
    refine ⟨1 + k, ?_⟩
    rw [h01]
    simp [primes_r, children_r]

/-- C8 counterexample: with base 10, root 2 and maximum length 2 (the
root's digit length 1 does not exceed it), the recursive enumerator's
stream is the finite `[255, 3, 255, 9, 255, 255]`, but after seven `TP_next_r` loop
iterations the generator reaches a state that its prune branch maps to
itself without yielding (the `i = base` assignment re-executes forever), so
driving it to exhaustion never terminates: even 1000 iterations produce no
complete stream. -/
theorem claim_C8_counterexample :
    digit_len 10 2 ≤ 2
      ∧ primes_init_root_r probab_prime 10 2 2 = [255, 3, 255, 9, 255, 255]
      ∧ TP_step_r probab_prime ((TP_steps_r probab_prime 7 (TP_init 10 2 2 255 255)).2)
          = some (none, (TP_steps_r probab_prime 7 (TP_init 10 2 2 255 255)).2)
      ∧ TP_run_r probab_prime 1000 (TP_init 10 2 2 255 255) = none := by decide

/-- C8 (amended: equality holds provided the root is strictly shorter than
the maximum length and no prime of exactly the maximum length is reached;
otherwise the generator's prune branch loops forever without yielding, as
the counterexample shows): for every base `b ≥ 2`, every root `r ≥ 1` with
`digit_len b r < maxlen`, if the exploration visits no prime of maximal
length then driving `TP_next_r` to exhaustion (with sufficiently many loop
iterations) produces exactly the byte stream of the recursive RIGHT-mode
enumerator started from the same root via `primes_init_root` — root byte,
branch labels and terminators in the same order. -/
theorem claim_C8 (pt : Nat → Bool) (b root maxlen : Nat) (hb : 2 ≤ b) (hroot : 1 ≤ root)
    (hlen : digit_len b root < maxlen)
    (hnohit : hits_limit_r pt b (maxlen - digit_len b root) root = false) :
    ∃ N, ∀ fuel, N ≤ fuel →
      TP_run_r pt fuel (TP_init b root maxlen 255 255)
        = some (primes_init_root_r pt b root maxlen) := by
  have hsub := TP_sub_r pt b (digit_len b root) maxlen hb (maxlen - digit_len b root)
  obtain ⟨k, hk⟩ := hsub 255 255 ⟨root, 0, 0, 0, 0⟩ [] (by omega)
    (by simp only [List.length_cons, List.length_nil]; omega) hnohit
  refine ⟨k + 1, ?_⟩
  intro fuel hf
  have hend : TP_step_r pt ⟨b, digit_len b root, maxlen, [⟨root, 0, 0, 0, 0⟩]⟩ = none := rfl
  exact TP_run_r_of_steps pt k _ _ _ hk hend fuel hf

theorem claim_C8_witness :
    ∃ N, ∀ fuel, N ≤ fuel →
      TP_run_r (fun n => n == 2 || n == 23) fuel (TP_init 10 2 3 255 255)
        = some (primes_init_root_r (fun n => n == 2 || n == 23) 10 2 3) :=
  claim_C8 (fun n => n == 2 || n == 23) 10 2 3 (by decide) (by decide) (by decide) (by decide)
